import Mathlib

/-!
# Sweeper of outdated scheduled jobs (`jobservice_v2/period/sweeper.go`)

A shallow embedding of `Sweeper.ClearOutdatedScheduledJobs` and `GetZsetByScore`.

The Go code talks to three collaborators: a Redis connection (`conn.Do`), the
`work.Client` (`DeleteScheduledJob`) and the helpers of package `utils`.  The
Redis keyspace is an explicit state, every request sent to it is recorded in a
trace together with what it returned, and connectivity failures come from a
fault oracle.  The helpers of `utils` and the `work.Client` are parameters.
-/

namespace Period

/-! ## Errors, jobs, scanned items -/

/-- A Go `error` value.  `ext ident msg` is an error handed over by a collaborator
(`ident` stands for its dynamic identity), `errorString msg` is a value freshly built
by `fmt.Errorf` or `errors.New`. -/
inductive GoError where
  | ext (ident : Nat) (msg : String)
  | errorString (msg : String)
  deriving DecidableEq

/-- The method `Error()` of an error value. -/
def GoError.Error : GoError → String
  | .ext _ msg => msg
  | .errorString msg => msg

/-- Raw bytes (`[]byte`). -/
abbrev Bytes := List UInt8

/-- The part of `work.Job` the sweeper reads: its identifier. -/
structure Job where
  ID : String
  deriving DecidableEq

/-- The struct `JobScore` (sweeper.go, lines 97-100). -/
structure JobScore where
  JobBytes : Bytes
  Score : Int
  deriving DecidableEq

/-! ## The Redis keyspace -/

/-- What a key of the store holds: a string value (here always an integer
timestamp) or an ordered set of `(member, score)` pairs.  The scores are the values the
store holds, taken to be integral (the scheduled index is scored with epoch seconds);
the store keeps them as float64, which shows in the text of a reply (`fmtScore`). -/
inductive Entry where
  | str (v : Int)
  | zset (members : List (Bytes × Int))
  deriving DecidableEq

/-- The keyspace: a key is absent when it maps to `none`.  Expiry of keys is not part
of the state: a key stays until it is deleted. -/
abbrev Store := String → Option Entry

/-- The keyspace with `key` bound to `e`. -/
def Store.put (st : Store) (key : String) (e : Entry) : Store :=
  fun k => if k = key then some e else st k

/-- The keyspace with `key` removed. -/
def Store.erase (st : Store) (key : String) : Store :=
  fun k => if k = key then none else st k

/-- The members of the ordered set at `key` (none when the key is absent or is not an
ordered set). -/
def Store.members (st : Store) (key : String) : List (Bytes × Int) :=
  match st key with
  | some (.zset ms) => ms
  | _ => []

/-- The requests the sweeper sends out: three Redis commands and the deletion request
to the `work.Client`. -/
inductive Op where
  /-- The command `SET key value EX ttl NX`. -/
  | set (key : String) (value : Int) (ttl : Nat)
  /-- The command `DEL key`. -/
  | del (key : String)
  /-- The command `ZRANGEBYSCORE key lo hi WITHSCORES`. -/
  | zrangebyscore (key : String) (lo hi : Int)
  /-- The call `client.DeleteScheduledJob(score, id)`. -/
  | deleteScheduledJob (score : Int) (id : String)
  deriving DecidableEq

/-- A reply of the store as `conn.Do` returns it. -/
inductive Reply where
  | nil
  | ok
  | int (n : Int)
  | array (values : List Bytes)
  deriving DecidableEq

/-! ## Scores on the wire -/

/-- The ASCII code of the decimal digit `d`. -/
def digitByte (d : Nat) : UInt8 := UInt8.ofNat (48 + d)

/-- Decimal digits of `n`, most significant first, with `fuel` bounding the number of
digits produced. -/
def natDigits : Nat → Nat → List UInt8
  | 0, _ => []
  | fuel + 1, n => if n < 10 then [digitByte n] else natDigits fuel (n / 10) ++ [digitByte (n % 10)]

/-- The plain decimal text of an integer, with a leading `-` for a negative value. -/
def plainScore (s : Int) : Bytes :=
  match s with
  | .ofNat n => natDigits (n + 1) n
  | .negSucc n => 45 :: natDigits (n + 2) (n + 1)

/-- A run of digits without its trailing zeros. -/
def stripZeros (ds : Bytes) : Bytes :=
  (ds.reverse.dropWhile (fun b => b.toNat = 48)).reverse

/-- The text `%.17g` gives for an integer `n ≥ 10^17`: seventeen significant digits
(rounded to nearest, ties to even) without trailing zeros, a `.` after the first when
more follow, then `e+` and the decimal exponent. -/
def expText (n : Nat) : Bytes :=
  let len := (natDigits (n + 1) n).length
  let k := len - 17
  let q0 := n / 10 ^ k
  let r := n % 10 ^ k
  let up : Bool :=
    decide (10 ^ k < 2 * r) || (decide (2 * r = 10 ^ k) && decide (q0 % 2 = 1))
  let q1 := if up then q0 + 1 else q0
  let carry : Bool := decide (q1 = 10 ^ 17)
  let q := if carry then 10 ^ 16 else q1
  let e := if carry then len else len - 1
  let ds := natDigits (q + 1) q
  let frac := stripZeros ds.tail
  ds.take 1 ++ (if frac = [] then [] else 46 :: frac) ++ [101, 43] ++ natDigits (e + 1) e

/-- The text of an integral score in a `WITHSCORES` reply.  The store keeps a score as
a float64 and prints it with `%.17g`: plain decimal for an absolute value below `10^17`,
exponent form from there on. -/
def fmtScore (s : Int) : Bytes :=
  if -(10 ^ 17) < s ∧ s < 10 ^ 17 then plainScore s
  else if s < 0 then 45 :: expText s.natAbs
  else expText s.natAbs

/-- The integer scores the store holds exactly whatever their neighbours: a float64
holds every integer of absolute value below `2^53`. -/
def isExactScore (v : Int) : Prop := -(2 ^ 53) < v ∧ v < 2 ^ 53

/-- Being an exactly held score is decidable. -/
instance instDecidableIsExactScore (v : Int) : Decidable (isExactScore v) :=
  inferInstanceAs (Decidable (-(2 ^ 53) < v ∧ v < 2 ^ 53))

/-- Value of a run of decimal digits read left to right from accumulator `acc`; `none`
on a byte that is not a digit. -/
def parseDigits : Bytes → Nat → Option Nat
  | [], acc => some acc
  | b :: bs, acc =>
    if 48 ≤ b.toNat ∧ b.toNat ≤ 57 then parseDigits bs (acc * 10 + (b.toNat - 48)) else none

/-- The values of type `int64`. -/
def isInt64 (v : Int) : Prop := -(2 ^ 63) ≤ v ∧ v < 2 ^ 63

/-- Being an `int64` value is decidable. -/
instance instDecidableIsInt64 (v : Int) : Decidable (isInt64 v) :=
  inferInstanceAs (Decidable (-(2 ^ 63) ≤ v ∧ v < 2 ^ 63))

/-- The function `strconv.ParseInt(s, 10, 64)`: the empty text is refused; a leading
`+` or `-` is taken off; what is left must be a non-empty run of decimal digits, of
value at most `2^63` after a `-` and below `2^63` otherwise. -/
def parseInt64 (s : Bytes) : Option Int :=
  match s with
  | [] => none
  | b :: rest =>
    let neg : Bool := decide (b.toNat = 45)
    let digits : Bytes := if b.toNat = 43 ∨ b.toNat = 45 then rest else s
    match digits with
    | [] => none
    | _ :: _ =>
      match parseDigits digits 0 with
      | none => none
      | some un =>
        if neg then (if un ≤ 2 ^ 63 then some (-(un : Int)) else none)
        else (if un < 2 ^ 63 then some (un : Int) else none)

/-! ## Order of an ordered set -/

/-- Bytewise lexicographic comparison (`memcmp` order). -/
def bytesLe : Bytes → Bytes → Bool
  | [], _ => true
  | _ :: _, [] => false
  | a :: as, b :: bs => decide (a.toNat < b.toNat) || (decide (a.toNat = b.toNat) && bytesLe as bs)

/-- The order of an ordered set: by score, members of equal score bytewise. -/
def zsetLe (a b : Bytes × Int) : Bool :=
  decide (a.2 < b.2) || (decide (a.2 = b.2) && bytesLe a.1 b.1)

/-- The members of the closed score range `[lo, hi]` in the order of the set. -/
def zrange (ms : List (Bytes × Int)) (lo hi : Int) : List (Bytes × Int) :=
  List.insertionSort (fun a b => zsetLe a b = true) (ms.filter (fun m => decide (lo ≤ m.2 ∧ m.2 ≤ hi)))

/-- The flat `member, score, member, score, ...` list of a `WITHSCORES` reply. -/
def flatten : List (Bytes × Int) → List Bytes
  | [] => []
  | (m, s) :: rest => m :: fmtScore s :: flatten rest

/-! ## Collaborators and the world -/

/-- The helpers of package `utils` and the `work.Client`, none of which is part of
`sweeper.go`.  `DeleteScheduledJob st score id` is what the client does to the keyspace
when the store is reachable, and the error it returns. -/
structure Collab where
  KeyPeriodicLock : String → String
  RedisKeyScheduled : String → String
  IsEmptyStr : String → Bool
  DeSerializeJob : Bytes → Except GoError Job
  DeleteScheduledJob : Store → Int → String → Option GoError × Store

/-- A connectivity failure of one request: the error the caller gets, and whether the
request had reached the store before the failure. -/
structure Fault where
  err : GoError
  applied : Bool
  deriving DecidableEq

/-- Equality of results is decidable when it is for errors and values. -/
instance instDecidableEqExcept {ε α : Type} [DecidableEq ε] [DecidableEq α] :
    DecidableEq (Except ε α)
  | .ok a, .ok b =>
    if h : a = b then isTrue (by rw [h]) else isFalse (fun h' => h (Except.ok.inj h'))
  | .error a, .error b =>
    if h : a = b then isTrue (by rw [h]) else isFalse (fun h' => h (Except.error.inj h'))
  | .ok _, .error _ => isFalse (fun h => Except.noConfusion h)
  | .error _, .ok _ => isFalse (fun h => Except.noConfusion h)

/-- A request together with what it returned to the caller. -/
structure Call where
  op : Op
  res : Except GoError Reply
  deriving DecidableEq

/-- The informational log lines of the sweeper: `"Ignore clear outdated scheduled jobs"`
(line 51) and `"Clear outdated scheduled job: <ID> run at <time of score>"` (line 73). -/
inductive LogEntry where
  | ignore
  | cleared (id : String) (score : Int)
  deriving DecidableEq

/-- Everything outside the process: the keyspace, the fault oracle (indexed by the
number of requests sent so far), the clock (indexed by the number of readings so far),
the trace of requests and the log. -/
structure World where
  store : Store
  faults : Nat → Option Fault
  clock : Nat → Int
  ticks : Nat
  trace : List Call
  logs : List LogEntry

/-- The error Redis answers when a command meets a key of the wrong type. -/
def wrongType : GoError :=
  .ext 1 "WRONGTYPE Operation against a key holding the wrong kind of value"

/-- What a request does to a reachable store: the reply and the new keyspace. -/
def exec (c : Collab) (op : Op) (st : Store) : Except GoError Reply × Store :=
  match op with
  | .set key value _ =>
    match st key with
    | some _ => (.ok .nil, st)
    | none => (.ok .ok, st.put key (.str value))
  | .del key =>
    match st key with
    | some _ => (.ok (.int 1), st.erase key)
    | none => (.ok (.int 0), st)
  | .zrangebyscore key lo hi =>
    match st key with
    | none => (.ok (.array []), st)
    | some (.zset ms) => (.ok (.array (flatten (zrange ms lo hi))), st)
    | some (.str _) => (.error wrongType, st)
  | .deleteScheduledJob score id =>
    match c.DeleteScheduledJob st score id with
    | (none, st') => (.ok .nil, st')
    | (some e, st') => (.error e, st')

/-- Send one request (`conn.Do`, or a call of the client): the fault oracle decides
whether it fails, the trace gets the request and its result. -/
def World.issue (c : Collab) (op : Op) (w : World) : Except GoError Reply × World :=
  let out := exec c op w.store
  match w.faults w.trace.length with
  | some f =>
    (.error f.err,
      { w with store := if f.applied then out.2 else w.store,
               trace := w.trace ++ [⟨op, .error f.err⟩] })
  | none => (out.1, { w with store := out.2, trace := w.trace ++ [⟨op, out.1⟩] })

/-- The reading `time.Now().Unix()`. -/
def World.now (w : World) : Int × World :=
  (w.clock w.ticks, { w with ticks := w.ticks + 1 })

/-- One line of `log.Info` / `log.Infof`. -/
def World.log (w : World) (e : LogEntry) : World :=
  { w with logs := w.logs ++ [e] }

/-! ## `GetZsetByScore` (lines 102-123) -/

/-- A `*redis.Pool`, possibly nil. -/
inductive Pool where
  | nil
  | live
  deriving DecidableEq

/-- The value `errors.New("bad arguments")` of line 105. -/
def badArguments : GoError := .errorString "bad arguments"

/-- The helper `redis.Values`: an error stays, an array reply gives its elements, a nil
reply gives `redis.ErrNil`, any other reply is a type error. -/
def redisValues (r : Except GoError Reply) : Except GoError (List Bytes) :=
  match r with
  | .error e => .error e
  | .ok (.array vs) => .ok vs
  | .ok .nil => .error (.ext 2 "redigo: nil returned")
  | .ok _ => .error (.errorString "redigo: unexpected type for Values")

/-- The pairs of a flat list read into `JobScore` values: the first field takes the
bytes as they are, the second is parsed as an `int64`. -/
def scanPairs : List Bytes → Except GoError (List JobScore)
  | m :: sc :: rest =>
    match parseInt64 sc with
    | none => .error (.errorString "redigo.ScanSlice: cannot assign element to field Score")
    | some v =>
      match scanPairs rest with
      | .error e => .error e
      | .ok js => .ok (⟨m, v⟩ :: js)
  | _ => .ok []

/-- The helper `redis.ScanSlice(values, &jobsWithScores)` for the two-field struct
`JobScore`: the length must be a multiple of two. -/
def ScanSlice (values : List Bytes) : Except GoError (List JobScore) :=
  if values.length % 2 ≠ 0 then
    .error (.errorString "redigo.ScanSlice: length not a multiple of struct field count")
  else scanPairs values

/-- The function `GetZsetByScore(pool, key, scores)`. -/
def GetZsetByScore (c : Collab) (pool : Pool) (key : String) (scores : List Int) (w : World) :
    Except GoError (List JobScore) × World :=
  if pool = Pool.nil ∨ c.IsEmptyStr key = true ∨ scores.length < 2 then
    (.error badArguments, w)
  else
    match scores with
    | lo :: hi :: _ =>
      -- line 111
      let r := w.issue c (.zrangebyscore key lo hi)
      match redisValues r.1 with
      | .error err => (.error err, r.2)
      | .ok values =>
        -- line 118
        match ScanSlice values with
        | .error err => (.error err, r.2)
        | .ok jobsWithScores => (.ok jobsWithScores, r.2)
    | _ => (.error badArguments, w)

/-! ## `ClearOutdatedScheduledJobs` (lines 34-94) -/

/-- The struct `Sweeper`; its `client` is the `DeleteScheduledJob` of the collaborators. -/
structure Sweeper where
  redisPool : Pool
  namespace_ : String

/-- The body of the loop (lines 63-73) for one scanned item. -/
def sweepItem (c : Collab) (jobScore : JobScore) (allErrors : List GoError) (w : World) :
    List GoError × World :=
  match c.DeSerializeJob jobScore.JobBytes with
  | .error err => (allErrors ++ [err], w)
  | .ok j =>
    let r := w.issue c (.deleteScheduledJob jobScore.Score j.ID)
    let allErrors :=
      match r.1 with
      | .error err => allErrors ++ [err]
      | .ok _ => allErrors
    (allErrors, r.2.log (.cleared j.ID jobScore.Score))

/-- The loop of lines 62-74. -/
def sweepItems (c : Collab) : List JobScore → List GoError → World → List GoError × World
  | [], allErrors, w => (allErrors, w)
  | jobScore :: rest, allErrors, w =>
    let step := sweepItem c jobScore allErrors w
    sweepItems c rest step.1 step.2

/-- The reduction of the collected errors to the returned one (lines 77-93). -/
def reduceErrors (allErrors : List GoError) : Option GoError :=
  match allErrors with
  | [] => none
  | [e] => some e
  | e0 :: _ =>
    some (.errorString
      (allErrors.enum.foldl
        (fun errorSummary p => if p.1 = 0 then errorSummary else errorSummary ++ ", " ++ p.2.Error)
        e0.Error))

/-- The statement of line 40: read the clock and send `SET lockKey now EX 30 NX`. -/
def lockStep (c : Collab) (s : Sweeper) (w : World) : Except GoError Reply × World :=
  let t := w.now
  t.2.issue c (.set (c.KeyPeriodicLock s.namespace_) t.1 30)

/-- The statements of lines 55-56: read the clock and scan the scores `[0, nowEpoch]`. -/
def scanStep (c : Collab) (s : Sweeper) (w : World) : Except GoError (List JobScore) × World :=
  let t := w.now
  GetZsetByScore c s.redisPool (c.RedisKeyScheduled s.namespace_) [0, t.1] t.2

/-- Lines 45-93: what runs between the registration of the deferred `DEL` and the
return, given the result `r` of the `SET`. -/
def afterLock (c : Collab) (s : Sweeper) (r : Except GoError Reply) (w : World) :
    Option GoError × World :=
  match r with
  | .error err => (some err, w)
  | .ok reply =>
    if reply = Reply.nil then (none, w.log .ignore)
    else
      let q := scanStep c s w
      match q.1 with
      | .error err => (some err, q.2)
      | .ok jobScores =>
        let l := sweepItems c jobScores [] q.2
        (reduceErrors l.1, l.2)

/-- The deferred function of lines 41-44: `DEL lockKey`, result dropped. -/
def unlockStep (c : Collab) (s : Sweeper) (w : World) : World :=
  (w.issue c (.del (c.KeyPeriodicLock s.namespace_))).2

/-- The method `ClearOutdatedScheduledJobs`.  `none` is the nil-pointer panic of
`s.redisPool.Get()` (line 36); otherwise the returned error and the world after the
deferred `DEL`.  The deferred `conn.Close()` sends nothing to the store. -/
def ClearOutdatedScheduledJobs (c : Collab) (s : Sweeper) (w : World) :
    Option (Option GoError × World) :=
  match s.redisPool with
  | .nil => none
  | .live =>
    let r := lockStep c s w
    let body := afterLock c s r.1 r.2
    some (body.1, unlockStep c s body.2)

/-! ## Reading a trace -/

/-- Is the request a `DEL`? -/
def Op.isDel : Op → Bool
  | .del _ => true
  | _ => false

/-- Is the request a `ZRANGEBYSCORE`? -/
def Op.isRange : Op → Bool
  | .zrangebyscore _ _ _ => true
  | _ => false

/-- Is the request a `DeleteScheduledJob`? -/
def Op.isDelete : Op → Bool
  | .deleteScheduledJob _ _ => true
  | _ => false

/-- The requests one call of `ClearOutdatedScheduledJobs` adds to the trace. -/
def newCalls (c : Collab) (s : Sweeper) (w : World) : List Call :=
  match ClearOutdatedScheduledJobs c s w with
  | some out => out.2.trace.drop w.trace.length
  | none => []

/-- The `DeleteScheduledJob` requests among some calls, in the order they were made. -/
def deleteRequests (calls : List Call) : List Op :=
  (calls.filter (fun call => call.op.isDelete)).map (fun call => call.op)

/-- The results of the `DeleteScheduledJob` requests among some calls, in order. -/
def deleteResults (calls : List Call) : List (Except GoError Reply) :=
  (calls.filter (fun call => call.op.isDelete)).map (fun call => call.res)

/-- The deletion request a scanned item gives rise to: none when its bytes do not
decode, else the item's score with the decoded identifier. -/
def requestOf (c : Collab) (jobScore : JobScore) : Option Op :=
  match c.DeSerializeJob jobScore.JobBytes with
  | .error _ => none
  | .ok j => some (.deleteScheduledJob jobScore.Score j.ID)

/-- What happened to one scanned item. -/
inductive ItemOutcome where
  | decodeFailed (err : GoError)
  | deleteFailed (j : Job) (err : GoError)
  | deleted (j : Job)
  deriving DecidableEq

/-- The failure an outcome stands for, if it is one. -/
def ItemOutcome.failure : ItemOutcome → Option GoError
  | .decodeFailed err => some err
  | .deleteFailed _ err => some err
  | .deleted _ => none

/-- The outcome of every scanned item, read off the results of the deletion requests:
an item that does not decode consumes no result, an item that decodes consumes the
next one. -/
def outcomes (c : Collab) : List JobScore → List (Except GoError Reply) → List ItemOutcome
  | [], _ => []
  | jobScore :: rest, results =>
    match c.DeSerializeJob jobScore.JobBytes with
    | .error err => .decodeFailed err :: outcomes c rest results
    | .ok j =>
      match results with
      | [] => []
      | .error err :: results => .deleteFailed j err :: outcomes c rest results
      | .ok _ :: results => .deleted j :: outcomes c rest results

/-- The per-item failures of one pass over `items`, in encounter order, as observed in
the trace of the call. -/
def perItemFailures (c : Collab) (s : Sweeper) (w : World) (items : List JobScore) : List GoError :=
  (outcomes c items (deleteResults (newCalls c s w))).filterMap ItemOutcome.failure

/-- The log line written for a scanned item: none when its bytes do not decode, else
the line of line 73. -/
def clearedOf (c : Collab) (jobScore : JobScore) : Option LogEntry :=
  match c.DeSerializeJob jobScore.JobBytes with
  | .error _ => none
  | .ok j => some (.cleared j.ID jobScore.Score)

/-- Did the request return an error? -/
def failed (r : Except GoError Reply) : Bool :=
  match r with
  | .error _ => true
  | .ok _ => false

/-- Did the decoding return an error? -/
def failedDecode (r : Except GoError Job) : Bool :=
  match r with
  | .error _ => true
  | .ok _ => false

/-- What the sweeper needs from `client.DeleteScheduledJob` on the scheduled index at
`key`: the call never adds a member, and when it returns no error no member with the
given score and (decoded) identifier is left. -/
structure DeleteContract (c : Collab) (key : String) : Prop where
  shrinks : ∀ (st : Store) (score : Int) (id : String),
    ∀ m ∈ (c.DeleteScheduledJob st score id).2.members key, m ∈ st.members key
  removes : ∀ (st : Store) (score : Int) (id : String),
    (c.DeleteScheduledJob st score id).1 = none →
    ∀ m ∈ (c.DeleteScheduledJob st score id).2.members key,
      ¬ (m.2 = score ∧ c.DeSerializeJob m.1 = .ok ⟨id⟩)

/-! ## Several processes on one namespace

The same method as a transition system: the requests of line 40, lines 55-56, every
pass of the loop and the deferred `DEL` are atomic steps of a process, and the steps of
several processes interleave on one shared world.  Keys never expire. -/

/-- Where a process stands in `ClearOutdatedScheduledJobs`. -/
inductive Proc where
  /-- Before the `SET` of line 40. -/
  | start
  /-- The `SET` returned a non-nil reply; the scan of lines 55-56 comes next. -/
  | holding
  /-- In the loop of lines 62-74, with the items still to process and the errors
  collected so far; once no item is left the method returns and the deferred `DEL`
  runs. -/
  | sweeping (pending : List JobScore) (allErrors : List GoError)
  /-- The method has returned `ret` before the loop (lines 46, 52, 58); the deferred
  `DEL` comes next.  The flag tells whether the `SET` of this process had returned a
  non-nil reply. -/
  | unlocking (ret : Option GoError) (acquired : Bool)
  /-- The deferred `DEL` has run; the call has returned `ret`. -/
  | done (ret : Option GoError)
  deriving DecidableEq

/-- One atomic step of a process on the shared world. -/
def Proc.step (c : Collab) (s : Sweeper) (p : Proc) (w : World) : Proc × World :=
  match p with
  | .start =>
    let r := lockStep c s w
    match r.1 with
    | .error err => (.unlocking (some err) false, r.2)
    | .ok reply =>
      if reply = Reply.nil then (.unlocking none false, r.2.log .ignore) else (.holding, r.2)
  | .holding =>
    let q := scanStep c s w
    match q.1 with
    | .error err => (.unlocking (some err) true, q.2)
    | .ok jobScores => (.sweeping jobScores [], q.2)
  | .sweeping (jobScore :: rest) allErrors =>
    let step := sweepItem c jobScore allErrors w
    (.sweeping rest step.1, step.2)
  | .sweeping [] allErrors => (.done (reduceErrors allErrors), unlockStep c s w)
  | .unlocking ret _ => (.done ret, unlockStep c s w)
  | .done ret => (.done ret, w)

/-- Is the process between its successful acquisition of the lock (its `SET ... NX`
returned a non-nil reply) and its own release (its deferred `DEL`)? -/
def Proc.holdsLock : Proc → Bool
  | .holding => true
  | .sweeping _ _ => true
  | .unlocking _ acquired => acquired
  | _ => false

/-- Some processes running the method of one sweeper configuration on a shared world. -/
structure System where
  world : World
  procs : List Proc

/-- The process number `i` takes one step (nothing happens when there is no such
process). -/
def System.step (c : Collab) (s : Sweeper) (sys : System) (i : Nat) : System :=
  match sys.procs.get? i with
  | none => sys
  | some p =>
    let r := p.step c s sys.world
    ⟨r.2, sys.procs.set i r.1⟩

/-- The system after the steps of a schedule, given as the list of the processes that
move, in order. -/
def System.run (c : Collab) (s : Sweeper) (sys : System) (schedule : List Nat) : System :=
  schedule.foldl (System.step c s) sys

/-- The number of processes that hold the lock. -/
def System.holders (sys : System) : Nat :=
  (sys.procs.filter Proc.holdsLock).length

/-- A process run on its own for `n` steps. -/
def Proc.runAlone (c : Collab) (s : Sweeper) : Nat → Proc × World → Proc × World
  | 0, pw => pw
  | n + 1, pw => Proc.runAlone c s n (pw.1.step c s pw.2)

/-! ## A concrete deployment

Collaborators, a sweeper and worlds on which the statements below are evaluated. -/

/-- Decoder of the example: the bytes `[1]`, `[2]`, `[3]` are the jobs `a`, `b`, `c`,
anything else does not decode. -/
def exampleDecode (b : Bytes) : Except GoError Job :=
  match b with
  | [1] => .ok ⟨"a"⟩
  | [2] => .ok ⟨"b"⟩
  | [3] => .ok ⟨"c"⟩
  | _ => .error (.ext 7 "unexpected end of JSON input")

/-- Client of the example: removes from the ordered set at `ns:scheduled` every member
with the given score whose decoded identifier is the given one, and never fails. -/
def exampleDelete (st : Store) (score : Int) (id : String) : Option GoError × Store :=
  (none,
    match st "ns:scheduled" with
    | some (.zset ms) =>
      st.put "ns:scheduled"
        (.zset (ms.filter (fun m =>
          !(decide (m.2 = score) && decide (exampleDecode m.1 = .ok ⟨id⟩)))))
    | _ => st)

/-- Collaborators of the example. -/
def exampleCollab : Collab where
  KeyPeriodicLock := fun ns => ns ++ ":period:lock"
  RedisKeyScheduled := fun ns => ns ++ ":scheduled"
  IsEmptyStr := fun str => str.isEmpty
  DeSerializeJob := exampleDecode
  DeleteScheduledJob := exampleDelete

/-- Sweeper of the example, on namespace `ns`. -/
def exampleSweeper : Sweeper := ⟨Pool.live, "ns"⟩

/-- World of the example: the ordered set `ns:scheduled` holds `members`, the lock key
is held iff `held`, the clock reads 1000, and the request number `n` meets the fault
`faults n`. -/
def exampleWorld (members : List (Bytes × Int)) (held : Bool) (faults : Nat → Option Fault) :
    World where
  store := fun k =>
    if k = "ns:scheduled" then some (.zset members)
    else if k = "ns:period:lock" then (if held then some (.str 990) else none)
    else none
  faults := faults
  clock := fun _ => 1000
  ticks := 0
  trace := []
  logs := []

/-- The fault oracle under which only request number `n` fails, with `conn reset`,
before reaching the store. -/
def failAt (n : Nat) : Nat → Option Fault :=
  fun k => if k = n then some ⟨.ext 9 "conn reset", false⟩ else none

/-- The fault oracle without faults. -/
def noFault : Nat → Option Fault := fun _ => none

/-! ## Effect of the primitives on the world -/

theorem issue_trace (c : Collab) (op : Op) (w : World) :
    (w.issue c op).2.trace = w.trace ++ [⟨op, (w.issue c op).1⟩] := by
  unfold World.issue
  split <;> rfl

theorem issue_logs (c : Collab) (op : Op) (w : World) : (w.issue c op).2.logs = w.logs := by
  unfold World.issue
  split <;> rfl

theorem issue_ticks (c : Collab) (op : Op) (w : World) : (w.issue c op).2.ticks = w.ticks := by
  unfold World.issue
  split <;> rfl

theorem issue_clock (c : Collab) (op : Op) (w : World) : (w.issue c op).2.clock = w.clock := by
  unfold World.issue
  split <;> rfl

theorem issue_faults (c : Collab) (op : Op) (w : World) : (w.issue c op).2.faults = w.faults := by
  unfold World.issue
  split <;> rfl

/-- A request that meets no fault returns what the store answers and leaves the store
as the request made it. -/
theorem issue_of_no_fault (c : Collab) (op : Op) (w : World)
    (h : w.faults w.trace.length = none) :
    (w.issue c op).1 = (exec c op w.store).1 ∧ (w.issue c op).2.store = (exec c op w.store).2 := by
  unfold World.issue
  rw [h]
  exact ⟨rfl, rfl⟩

/-- A request that returns a reply met no fault. -/
theorem issue_ok (c : Collab) (op : Op) (w : World) (r : Reply) (h : (w.issue c op).1 = .ok r) :
    (exec c op w.store).1 = .ok r ∧ (w.issue c op).2.store = (exec c op w.store).2 := by
  unfold World.issue at h ⊢
  split at h
  · cases h
  · exact ⟨h, rfl⟩

/-- Whatever happens to a request, the store afterwards is the old one or the one the
request produces. -/
theorem issue_store_cases (c : Collab) (op : Op) (w : World) :
    (w.issue c op).2.store = w.store ∨ (w.issue c op).2.store = (exec c op w.store).2 := by
  unfold World.issue
  split
  · rename_i f _
    cases hf : f.applied
    · left; simp
    · right; simp
  · right; rfl

theorem exec_zrange_store (c : Collab) (key : String) (lo hi : Int) (st : Store) :
    (exec c (.zrangebyscore key lo hi) st).2 = st := by
  unfold exec
  simp only
  split <;> rfl

theorem issue_zrange_store (c : Collab) (key : String) (lo hi : Int) (w : World) :
    (w.issue c (.zrangebyscore key lo hi)).2.store = w.store := by
  rcases issue_store_cases c (.zrangebyscore key lo hi) w with h | h
  · exact h
  · rw [h, exec_zrange_store]

/-! ## The steps of the method -/

theorem lockStep_trace (c : Collab) (s : Sweeper) (w : World) :
    (lockStep c s w).2.trace
      = w.trace ++ [⟨.set (c.KeyPeriodicLock s.namespace_) (w.clock w.ticks) 30, (lockStep c s w).1⟩] := by
  unfold lockStep
  simp only [issue_trace]
  rfl

theorem lockStep_logs (c : Collab) (s : Sweeper) (w : World) : (lockStep c s w).2.logs = w.logs := by
  unfold lockStep
  simp only [issue_logs]
  rfl

theorem lockStep_ticks (c : Collab) (s : Sweeper) (w : World) :
    (lockStep c s w).2.ticks = w.ticks + 1 := by
  unfold lockStep
  simp only [issue_ticks]
  rfl

theorem lockStep_clock (c : Collab) (s : Sweeper) (w : World) : (lockStep c s w).2.clock = w.clock := by
  unfold lockStep
  simp only [issue_clock]
  rfl

theorem unlockStep_trace (c : Collab) (s : Sweeper) (w : World) :
    (unlockStep c s w).trace
      = w.trace ++ [⟨.del (c.KeyPeriodicLock s.namespace_),
          (w.issue c (.del (c.KeyPeriodicLock s.namespace_))).1⟩] := by
  unfold unlockStep
  rw [issue_trace]

theorem unlockStep_logs (c : Collab) (s : Sweeper) (w : World) : (unlockStep c s w).logs = w.logs := by
  unfold unlockStep
  rw [issue_logs]

/-- The scan either sends nothing (bad arguments) or exactly one `ZRANGEBYSCORE`; the
store, the log and the clock are as before, and a successful scan is the reading of the
array the store returned for the scores `lo`, `hi`. -/
theorem GetZsetByScore_effect (c : Collab) (pool : Pool) (key : String) (scores : List Int)
    (w : World) :
    (GetZsetByScore c pool key scores w).2.store = w.store
    ∧ (GetZsetByScore c pool key scores w).2.logs = w.logs
    ∧ (GetZsetByScore c pool key scores w).2.ticks = w.ticks
    ∧ (GetZsetByScore c pool key scores w).2.clock = w.clock
    ∧ (GetZsetByScore c pool key scores w).2.faults = w.faults
    ∧ (((∃ e, (GetZsetByScore c pool key scores w).1 = .error e)
          ∧ ((GetZsetByScore c pool key scores w).2.trace = w.trace
              ∨ ∃ lo hi res, (GetZsetByScore c pool key scores w).2.trace
                  = w.trace ++ [⟨.zrangebyscore key lo hi, res⟩]))
        ∨ ∃ lo hi rest values items, scores = lo :: hi :: rest
            ∧ (w.issue c (.zrangebyscore key lo hi)).1 = .ok (.array values)
            ∧ ScanSlice values = .ok items
            ∧ (GetZsetByScore c pool key scores w).1 = .ok items
            ∧ (GetZsetByScore c pool key scores w).2.trace
                = w.trace ++ [⟨.zrangebyscore key lo hi, .ok (.array values)⟩]) := by
  by_cases hbad : pool = Pool.nil ∨ c.IsEmptyStr key = true ∨ scores.length < 2
  · unfold GetZsetByScore
    rw [if_pos hbad]
    exact ⟨rfl, rfl, rfl, rfl, rfl, Or.inl ⟨⟨_, rfl⟩, Or.inl rfl⟩⟩
  · rcases scores with _ | ⟨lo, _ | ⟨hi, rest⟩⟩
    · exact absurd (Or.inr (Or.inr (by simp))) hbad
    · exact absurd (Or.inr (Or.inr (by simp))) hbad
    · unfold GetZsetByScore
      rw [if_neg hbad]
      simp only
      have htr := issue_trace c (.zrangebyscore key lo hi) w
      have hst := issue_zrange_store c key lo hi w
      have hlg := issue_logs c (.zrangebyscore key lo hi) w
      have htk := issue_ticks c (.zrangebyscore key lo hi) w
      have hck := issue_clock c (.zrangebyscore key lo hi) w
      have hfl := issue_faults c (.zrangebyscore key lo hi) w
      generalize hq : w.issue c (.zrangebyscore key lo hi) = q at htr hst hlg htk hck hfl ⊢
      obtain ⟨res, w1⟩ := q
      simp only at htr hst hlg htk hck hfl
      cases hv : redisValues res with
      | error e =>
        simp only [hv]
        exact ⟨hst, hlg, htk, hck, hfl, Or.inl ⟨⟨_, rfl⟩, Or.inr ⟨lo, hi, res, htr⟩⟩⟩
      | ok values =>
        simp only [hv]
        have hres : res = .ok (.array values) := by
          unfold redisValues at hv
          split at hv <;> simp_all
        cases hs : ScanSlice values with
        | error e =>
          simp only
          exact ⟨hst, hlg, htk, hck, hfl, Or.inl ⟨⟨_, rfl⟩, Or.inr ⟨lo, hi, res, htr⟩⟩⟩
        | ok items =>
          simp only
          refine ⟨hst, hlg, htk, hck, hfl, Or.inr ⟨lo, hi, rest, values, items, rfl, by rw [hq]; exact hres, hs, rfl, ?_⟩⟩
          rw [htr, hres]

/-! ## The loop over the scanned items -/

/-- The loop sends one deletion request per item that decodes, in scan order; the
errors it collects are the failures of the outcomes read off the results; every item
has an outcome; the log gets one line per item that decodes. -/
theorem sweepItems_spec (c : Collab) :
    ∀ (items : List JobScore) (errs : List GoError) (w : World), ∃ calls : List Call,
      (sweepItems c items errs w).2.trace = w.trace ++ calls
      ∧ calls.map (fun call => call.op) = items.filterMap (requestOf c)
      ∧ (sweepItems c items errs w).1
          = errs ++ (outcomes c items (calls.map (fun call => call.res))).filterMap
              ItemOutcome.failure
      ∧ (outcomes c items (calls.map (fun call => call.res))).length = items.length
      ∧ (sweepItems c items errs w).2.logs = w.logs ++ items.filterMap (clearedOf c) := by
  intro items
  induction items with
  | nil =>
    intro errs w
    exact ⟨[], by simp [sweepItems], by simp, by simp [sweepItems, outcomes], by simp [outcomes],
      by simp [sweepItems]⟩
  | cons it rest ih =>
    intro errs w
    cases hd : c.DeSerializeJob it.JobBytes with
    | error err =>
      obtain ⟨calls, h1, h2, h3, h4, h5⟩ := ih (errs ++ [err]) w
      refine ⟨calls, ?_, ?_, ?_, ?_, ?_⟩
      · simpa [sweepItems, sweepItem, hd] using h1
      · simpa [requestOf, hd, List.filterMap_cons] using h2
      · simp only [sweepItems, sweepItem, hd, outcomes, List.filterMap_cons, ItemOutcome.failure]
        rw [h3]
        simp
      · simp [outcomes, hd, h4]
      · simpa [sweepItems, sweepItem, hd, clearedOf, List.filterMap_cons] using h5
    | ok j =>
      have htr := issue_trace c (.deleteScheduledJob it.Score j.ID) w
      have hlg := issue_logs c (.deleteScheduledJob it.Score j.ID) w
      cases hr : (w.issue c (.deleteScheduledJob it.Score j.ID)).1 with
      | error err =>
        obtain ⟨calls, h1, h2, h3, h4, h5⟩ :=
          ih (errs ++ [err])
            ((w.issue c (.deleteScheduledJob it.Score j.ID)).2.log (.cleared j.ID it.Score))
        refine ⟨⟨.deleteScheduledJob it.Score j.ID, .error err⟩ :: calls, ?_, ?_, ?_, ?_, ?_⟩
        · simp only [sweepItems, sweepItem, hd, hr]
          rw [h1]
          simp [World.log, htr, hr]
        · simp [requestOf, hd, List.filterMap_cons, h2]
        · simp only [sweepItems, sweepItem, hd, hr, outcomes, List.map_cons, List.filterMap_cons,
            ItemOutcome.failure]
          rw [h3]
          simp
        · simp [outcomes, hd, h4]
        · simp only [sweepItems, sweepItem, hd, hr]
          rw [h5]
          simp [World.log, hlg, clearedOf, hd, List.filterMap_cons]
      | ok reply =>
        obtain ⟨calls, h1, h2, h3, h4, h5⟩ :=
          ih errs
            ((w.issue c (.deleteScheduledJob it.Score j.ID)).2.log (.cleared j.ID it.Score))
        refine ⟨⟨.deleteScheduledJob it.Score j.ID, .ok reply⟩ :: calls, ?_, ?_, ?_, ?_, ?_⟩
        · simp only [sweepItems, sweepItem, hd, hr]
          rw [h1]
          simp [World.log, htr, hr]
        · simp [requestOf, hd, List.filterMap_cons, h2]
        · simp only [sweepItems, sweepItem, hd, hr, outcomes, List.map_cons, List.filterMap_cons,
            ItemOutcome.failure]
          rw [h3]
        · simp [outcomes, hd, h4]
        · simp only [sweepItems, sweepItem, hd, hr]
          rw [h5]
          simp [World.log, hlg, clearedOf, hd, List.filterMap_cons]

/-! ## The reduction of the collected errors -/

theorem foldl_enumFrom_summary (rest : List GoError) :
    ∀ (n : Nat) (acc : String), 0 < n →
      (rest.enumFrom n).foldl
          (fun errorSummary p => if p.1 = 0 then errorSummary else errorSummary ++ ", " ++ p.2.Error)
          acc
        = String.intercalate.go acc ", " (rest.map GoError.Error) := by
  induction rest with
  | nil => intro n acc _; simp [String.intercalate.go]
  | cons e rest ih =>
    intro n acc hn
    have hne : n ≠ 0 := Nat.pos_iff_ne_zero.mp hn
    simp only [List.enumFrom_cons, List.foldl_cons, List.map_cons, String.intercalate.go, if_neg hne]
    exact ih (n + 1) _ (Nat.succ_pos n)

/-- Two or more collected errors are reduced to a fresh error whose text is the texts
joined by `", "`. -/
theorem reduceErrors_many (errs : List GoError) (h : 2 ≤ errs.length) :
    reduceErrors errs
      = some (.errorString (String.intercalate ", " (errs.map GoError.Error))) := by
  match errs, h with
  | e0 :: e1 :: rest, _ =>
    have hrest := foldl_enumFrom_summary rest (0 + 1 + 1) (e0.Error ++ ", " ++ e1.Error)
      (Nat.succ_pos _)
    simp only [reduceErrors, List.enum, List.enumFrom_cons, List.foldl_cons, List.map_cons,
      String.intercalate, String.intercalate.go]
    simpa using hrest

/-! ## The whole call -/

theorem run_eq (c : Collab) (s : Sweeper) (w : World) (hpool : s.redisPool = Pool.live) :
    ClearOutdatedScheduledJobs c s w
      = some ((afterLock c s (lockStep c s w).1 (lockStep c s w).2).1,
          unlockStep c s (afterLock c s (lockStep c s w).1 (lockStep c s w).2).2) := by
  unfold ClearOutdatedScheduledJobs
  rw [hpool]

theorem newCalls_eq (c : Collab) (s : Sweeper) (w : World) (ret : Option GoError) (w' : World)
    (calls : List Call) (h : ClearOutdatedScheduledJobs c s w = some (ret, w'))
    (ht : w'.trace = w.trace ++ calls) : newCalls c s w = calls := by
  unfold newCalls
  rw [h]
  simp [ht]

theorem scanStep_effect (c : Collab) (s : Sweeper) (w : World) :
    (scanStep c s w).2.store = w.store
    ∧ (scanStep c s w).2.logs = w.logs
    ∧ (((∃ e, (scanStep c s w).1 = .error e)
          ∧ ((scanStep c s w).2.trace = w.trace
              ∨ ∃ lo hi res, (scanStep c s w).2.trace
                  = w.trace ++ [⟨.zrangebyscore (c.RedisKeyScheduled s.namespace_) lo hi, res⟩]))
        ∨ ∃ values items,
            (w.now.2.issue c
                (.zrangebyscore (c.RedisKeyScheduled s.namespace_) 0 (w.clock w.ticks))).1
              = .ok (.array values)
            ∧ ScanSlice values = .ok items
            ∧ (scanStep c s w).1 = .ok items
            ∧ (scanStep c s w).2.trace
                = w.trace ++ [⟨.zrangebyscore (c.RedisKeyScheduled s.namespace_) 0 (w.clock w.ticks),
                    .ok (.array values)⟩]) := by
  have h := GetZsetByScore_effect c s.redisPool (c.RedisKeyScheduled s.namespace_)
    [0, w.clock w.ticks] w.now.2
  obtain ⟨h1, h2, _, _, _, h6⟩ := h
  refine ⟨h1, h2, ?_⟩
  rcases h6 with ⟨he, ht⟩ | ⟨lo, hi, rest, values, items, hsc, hi1, hi2, hi3, hi4⟩
  · exact Or.inl ⟨he, ht⟩
  · right
    simp only [List.cons.injEq] at hsc
    obtain ⟨rfl, rfl, _⟩ := hsc
    exact ⟨values, items, hi1, hi2, hi3, hi4⟩

theorem requestOf_isDelete (c : Collab) (it : JobScore) (op : Op) (h : requestOf c it = some op) :
    op.isDelete = true := by
  unfold requestOf at h
  split at h
  · cases h
  · cases h
    rfl

theorem requests_isDelete (c : Collab) (items : List JobScore) (calls : List Call)
    (h : calls.map (fun call => call.op) = items.filterMap (requestOf c)) :
    ∀ call ∈ calls, call.op.isDelete = true := by
  intro call hc
  have hmem : call.op ∈ calls.map (fun call => call.op) := List.mem_map_of_mem _ hc
  rw [h, List.mem_filterMap] at hmem
  obtain ⟨it, _, hit⟩ := hmem
  exact requestOf_isDelete c it _ hit

theorem filter_isDelete_eq (calls : List Call) (h : ∀ call ∈ calls, call.op.isDelete = true) :
    calls.filter (fun call => call.op.isDelete) = calls :=
  List.filter_eq_self.mpr h

theorem afterLock_error (c : Collab) (s : Sweeper) (w : World) (e : GoError) :
    afterLock c s (.error e) w = (some e, w) := rfl

theorem afterLock_nil (c : Collab) (s : Sweeper) (w : World) :
    afterLock c s (.ok .nil) w = (none, w.log .ignore) := by
  simp [afterLock]

theorem afterLock_scan_error (c : Collab) (s : Sweeper) (w : World) (r : Reply) (e : GoError)
    (hr : r ≠ .nil) (hscan : (scanStep c s w).1 = .error e) :
    afterLock c s (.ok r) w = (some e, (scanStep c s w).2) := by
  simp [afterLock, hr, hscan]

theorem afterLock_swept (c : Collab) (s : Sweeper) (w : World) (r : Reply) (items : List JobScore)
    (hr : r ≠ .nil) (hscan : (scanStep c s w).1 = .ok items) :
    afterLock c s (.ok r) w
      = (reduceErrors (sweepItems c items [] (scanStep c s w).2).1,
          (sweepItems c items [] (scanStep c s w).2).2) := by
  simp [afterLock, hr, hscan]

/-- The shape of a call that acquired the lock and whose scan returned `items`: the
trace gets the `SET`, the `ZRANGEBYSCORE` over `[0, nowEpoch]`, the deletion requests of
the loop and the `DEL`; the returned error is the reduction of the failures of the
outcomes; the log gets the lines of the loop. -/
theorem run_swept (c : Collab) (s : Sweeper) (w : World) (r : Reply) (items : List JobScore)
    (hpool : s.redisPool = Pool.live) (hset : (lockStep c s w).1 = .ok r) (hr : r ≠ .nil)
    (hscan : (scanStep c s (lockStep c s w).2).1 = .ok items) :
    ∃ (w' : World) (values : List Bytes) (calls : List Call) (res : Except GoError Reply),
      ClearOutdatedScheduledJobs c s w
        = some (reduceErrors ((outcomes c items (calls.map (fun call => call.res))).filterMap
            ItemOutcome.failure), w')
      ∧ newCalls c s w
          = ⟨.set (c.KeyPeriodicLock s.namespace_) (w.clock w.ticks) 30, .ok r⟩
            :: ⟨.zrangebyscore (c.RedisKeyScheduled s.namespace_) 0 (w.clock (w.ticks + 1)),
                .ok (.array values)⟩
            :: (calls ++ [⟨.del (c.KeyPeriodicLock s.namespace_), res⟩])
      ∧ ScanSlice values = .ok items
      ∧ ((lockStep c s w).2.now.2.issue c
            (.zrangebyscore (c.RedisKeyScheduled s.namespace_) 0 (w.clock (w.ticks + 1)))).1
          = .ok (.array values)
      ∧ calls.map (fun call => call.op) = items.filterMap (requestOf c)
      ∧ (outcomes c items (calls.map (fun call => call.res))).length = items.length
      ∧ w'.logs = w.logs ++ items.filterMap (clearedOf c)
      ∧ w' = unlockStep c s (sweepItems c items [] (scanStep c s (lockStep c s w).2).2).2
      ∧ (sweepItems c items [] (scanStep c s (lockStep c s w).2).2).1
          = (outcomes c items (calls.map (fun call => call.res))).filterMap ItemOutcome.failure
      ∧ (sweepItems c items [] (scanStep c s (lockStep c s w).2).2).2.trace
          = (scanStep c s (lockStep c s w).2).2.trace ++ calls := by
  have hrun := run_eq c s w hpool
  rw [hset, afterLock_swept c s _ r items hr hscan] at hrun
  obtain ⟨hsst, hslg, hsc⟩ := scanStep_effect c s (lockStep c s w).2
  rcases hsc with ⟨⟨e, he⟩, _⟩ | ⟨values, items', hv1, hv2, hv3, hv4⟩
  · rw [hscan] at he
    cases he
  · rw [hscan] at hv3
    cases hv3
    obtain ⟨calls, h1, h2, h3, h4, h5⟩ :=
      sweepItems_spec c items [] (scanStep c s (lockStep c s w).2).2
    rw [lockStep_clock, lockStep_ticks] at hv1 hv4
    refine ⟨unlockStep c s (sweepItems c items [] (scanStep c s (lockStep c s w).2).2).2, values,
      calls,
      ((sweepItems c items [] (scanStep c s (lockStep c s w).2).2).2.issue c
        (.del (c.KeyPeriodicLock s.namespace_))).1,
      ?_, ?_, hv2, hv1, h2, h4, ?_, rfl, by simpa using h3, h1⟩
    · rw [hrun, h3]
      simp
    · apply newCalls_eq c s w _ _ _ hrun
      rw [unlockStep_trace, h1, hv4, lockStep_trace, hset]
      simp
    · rw [unlockStep_logs, h5, hslg, lockStep_logs]

theorem deleteResults_swept (pre1 pre2 last : Call) (calls : List Call)
    (h1 : pre1.op.isDelete = false) (h2 : pre2.op.isDelete = false)
    (h3 : last.op.isDelete = false) (hc : ∀ call ∈ calls, call.op.isDelete = true) :
    deleteResults (pre1 :: pre2 :: (calls ++ [last])) = calls.map (fun call => call.res)
    ∧ deleteRequests (pre1 :: pre2 :: (calls ++ [last])) = calls.map (fun call => call.op) := by
  unfold deleteResults deleteRequests
  simp [List.filter_cons, h1, h2, h3, List.filter_append, filter_isDelete_eq calls hc]

theorem exec_del_absent (c : Collab) (key : String) (st : Store) :
    (exec c (.del key) st).2 key = none := by
  unfold exec
  simp only
  split
  · simp [Store.erase]
  · assumption

theorem exec_del_other (c : Collab) (key k : String) (st : Store) (h : k ≠ key) :
    (exec c (.del key) st).2 k = st k := by
  unfold exec
  simp only
  split
  · simp [Store.erase, h]
  · rfl

/-- Between the `SET` and the deferred `DEL` only scans and deletion requests are
sent. -/
theorem afterLock_trace (c : Collab) (s : Sweeper) (r : Except GoError Reply) (w : World) :
    ∃ mid : List Call, (afterLock c s r w).2.trace = w.trace ++ mid
      ∧ ∀ call ∈ mid, call.op.isRange = true ∨ call.op.isDelete = true := by
  cases r with
  | error e => exact ⟨[], by simp [afterLock], by simp⟩
  | ok reply =>
    by_cases hr : reply = Reply.nil
    · subst hr
      exact ⟨[], by simp [afterLock, World.log], by simp⟩
    · obtain ⟨_, _, hsc⟩ := scanStep_effect c s w
      rcases hsc with ⟨⟨e, he⟩, ht⟩ | ⟨values, items, _, _, hv3, hv4⟩
      · rw [afterLock_scan_error c s w reply e hr he]
        rcases ht with ht | ⟨lo, hi, res, ht⟩
        · exact ⟨[], by simp [ht], by simp⟩
        · exact ⟨_, ht, by simp [Op.isRange]⟩
      · rw [afterLock_swept c s w reply items hr hv3]
        obtain ⟨calls, h1, h2, _⟩ := sweepItems_spec c items [] (scanStep c s w).2
        refine ⟨⟨.zrangebyscore (c.RedisKeyScheduled s.namespace_) 0 (w.clock w.ticks),
          .ok (.array values)⟩ :: calls,
          by simp only [h1, hv4, List.append_assoc, List.singleton_append], ?_⟩
        intro call hc
        rcases List.mem_cons.mp hc with rfl | hc
        · left; rfl
        · right; exact requests_isDelete c items calls h2 call hc

theorem isDel_of_range_or_delete (op : Op) (h : op.isRange = true ∨ op.isDelete = true) :
    op.isDel = false := by
  cases op <;> simp [Op.isRange, Op.isDelete, Op.isDel] at h ⊢

/-! ## Release of the lock -/

/-- C2: a call on a live pool returns, and whatever path it takes (the lock acquired
and the sweep clean or with per-item failures, the scan failed, the `SET` failed, the
lock held by someone else) the requests it sends end with a `DEL` of the lock key
`KeyPeriodicLock(namespace)`, no request before that one is a `DEL`, and when that
`DEL` returns a reply the lock key is absent from the store at the return. -/
theorem release_on_every_exit (c : Collab) (s : Sweeper) (w : World)
    (hpool : s.redisPool = Pool.live) :
    ∃ (ret : Option GoError) (w' : World) (pre : List Call) (res : Except GoError Reply),
      ClearOutdatedScheduledJobs c s w = some (ret, w')
      ∧ newCalls c s w = pre ++ [⟨.del (c.KeyPeriodicLock s.namespace_), res⟩]
      ∧ (∀ call ∈ pre, call.op.isDel = false)
      ∧ (∀ reply, res = .ok reply → w'.store (c.KeyPeriodicLock s.namespace_) = none) := by
  have hrun := run_eq c s w hpool
  obtain ⟨mid, hmid, hops⟩ := afterLock_trace c s (lockStep c s w).1 (lockStep c s w).2
  refine ⟨_, _,
    ⟨.set (c.KeyPeriodicLock s.namespace_) (w.clock w.ticks) 30, (lockStep c s w).1⟩ :: mid,
    ((afterLock c s (lockStep c s w).1 (lockStep c s w).2).2.issue c
      (.del (c.KeyPeriodicLock s.namespace_))).1, hrun, ?_, ?_, ?_⟩
  · apply newCalls_eq c s w _ _ _ hrun
    rw [unlockStep_trace, hmid, lockStep_trace]
    simp
  · intro call hc
    rcases List.mem_cons.mp hc with rfl | hc
    · rfl
    · exact isDel_of_range_or_delete _ (hops call hc)
  · intro reply hres
    have h := issue_ok c _ _ reply hres
    unfold unlockStep
    rw [h.2]
    exact exec_del_absent c _ _

/-- C2 on the example: the lock is held by someone else, and still the call ends with
its `DEL`. -/
theorem release_on_every_exit_witness :
    exampleSweeper.redisPool = Pool.live
    ∧ ∃ (ret : Option GoError) (w' : World) (pre : List Call) (res : Except GoError Reply),
      ClearOutdatedScheduledJobs exampleCollab exampleSweeper (exampleWorld [] true noFault)
        = some (ret, w')
      ∧ newCalls exampleCollab exampleSweeper (exampleWorld [] true noFault)
          = pre ++ [⟨.del (exampleCollab.KeyPeriodicLock exampleSweeper.namespace_), res⟩]
      ∧ (∀ call ∈ pre, call.op.isDel = false)
      ∧ (∀ reply, res = .ok reply →
          w'.store (exampleCollab.KeyPeriodicLock exampleSweeper.namespace_) = none) :=
  ⟨rfl, release_on_every_exit exampleCollab exampleSweeper (exampleWorld [] true noFault) rfl⟩

/-! ## Lock contention -/

/-- C3: when the lock key of the namespace already exists and the `SET ... NX` meets
no fault (so that it returns nil without error), the call returns nil, the requests it
sends are the `SET` and the deferred `DEL` only, so no `ZRANGEBYSCORE` and no
`DeleteScheduledJob`, and the scheduled index, whose key is not the lock key, is as
before. -/
theorem contention_is_noop_success (c : Collab) (s : Sweeper) (w : World)
    (hpool : s.redisPool = Pool.live)
    (hkeys : c.RedisKeyScheduled s.namespace_ ≠ c.KeyPeriodicLock s.namespace_)
    (hfault : w.faults w.trace.length = none)
    (hheld : w.store (c.KeyPeriodicLock s.namespace_) ≠ none) :
    ∃ (w' : World) (res : Except GoError Reply),
      ClearOutdatedScheduledJobs c s w = some (none, w')
      ∧ newCalls c s w
          = [⟨.set (c.KeyPeriodicLock s.namespace_) (w.clock w.ticks) 30, .ok .nil⟩,
             ⟨.del (c.KeyPeriodicLock s.namespace_), res⟩]
      ∧ (∀ call ∈ newCalls c s w, call.op.isRange = false ∧ call.op.isDelete = false)
      ∧ w'.store (c.RedisKeyScheduled s.namespace_) = w.store (c.RedisKeyScheduled s.namespace_) := by
  have hrun := run_eq c s w hpool
  obtain ⟨e, he⟩ := Option.ne_none_iff_exists'.mp hheld
  have hexec : exec c (.set (c.KeyPeriodicLock s.namespace_) (w.clock w.ticks) 30) w.store
      = (.ok .nil, w.store) := by
    unfold exec
    simp only [he]
  have hset : (lockStep c s w).1 = .ok .nil ∧ (lockStep c s w).2.store = w.store := by
    have h := issue_of_no_fault c (.set (c.KeyPeriodicLock s.namespace_) (w.clock w.ticks) 30)
      w.now.2 hfault
    exact ⟨h.1.trans (congrArg Prod.fst hexec), h.2.trans (congrArg Prod.snd hexec)⟩
  rw [hset.1, afterLock_nil] at hrun
  have hnew : newCalls c s w
      = [⟨.set (c.KeyPeriodicLock s.namespace_) (w.clock w.ticks) 30, .ok .nil⟩,
         ⟨.del (c.KeyPeriodicLock s.namespace_),
           (((lockStep c s w).2.log .ignore).issue c (.del (c.KeyPeriodicLock s.namespace_))).1⟩] := by
    apply newCalls_eq c s w _ _ _ hrun
    rw [unlockStep_trace]
    simp only [World.log]
    rw [lockStep_trace, hset.1]
    simp
  refine ⟨_, _, hrun, hnew, ?_, ?_⟩
  · rw [hnew]
    intro call hc
    simp only [List.mem_cons, List.mem_singleton, List.not_mem_nil, or_false] at hc
    rcases hc with rfl | rfl <;> exact ⟨rfl, rfl⟩
  · unfold unlockStep
    rcases issue_store_cases c (.del (c.KeyPeriodicLock s.namespace_))
      ((lockStep c s w).2.log .ignore) with h | h
    · rw [h]
      simp only [World.log, hset.2]
    · rw [h, exec_del_other c _ _ _ hkeys]
      simp only [World.log, hset.2]

/-- C3 on the example: three stale items are in the index, the lock is held, nothing is
scanned or deleted. -/
theorem contention_is_noop_success_witness :
    ∃ (w' : World) (res : Except GoError Reply),
      ClearOutdatedScheduledJobs exampleCollab exampleSweeper
          (exampleWorld [([1], 10), ([2], 20), ([3], 30)] true noFault) = some (none, w')
      ∧ newCalls exampleCollab exampleSweeper
            (exampleWorld [([1], 10), ([2], 20), ([3], 30)] true noFault)
          = [⟨.set "ns:period:lock" 1000 30, .ok .nil⟩, ⟨.del "ns:period:lock", res⟩]
      ∧ (∀ call ∈ newCalls exampleCollab exampleSweeper
            (exampleWorld [([1], 10), ([2], 20), ([3], 30)] true noFault),
          call.op.isRange = false ∧ call.op.isDelete = false)
      ∧ w'.store "ns:scheduled" = some (.zset [([1], 10), ([2], 20), ([3], 30)]) :=
  contention_is_noop_success exampleCollab exampleSweeper
    (exampleWorld [([1], 10), ([2], 20), ([3], 30)] true noFault) rfl (by decide) rfl (by decide)

/-! ## Store errors -/

/-- C7: if the `SET` of the lock fails with the store error `e`, the call returns
exactly `e` and sends nothing but that `SET` and the deferred `DEL` (no range query, no
`DeleteScheduledJob`); if the lock is acquired and `GetZsetByScore` fails with `e`, the
call returns exactly `e` and sends no `DeleteScheduledJob`. -/
theorem store_errors_abort (c : Collab) (s : Sweeper) (w : World) (e : GoError)
    (hpool : s.redisPool = Pool.live) :
    ((lockStep c s w).1 = .error e →
      ∃ (w' : World) (res : Except GoError Reply),
        ClearOutdatedScheduledJobs c s w = some (some e, w')
        ∧ newCalls c s w
            = [⟨.set (c.KeyPeriodicLock s.namespace_) (w.clock w.ticks) 30, .error e⟩,
               ⟨.del (c.KeyPeriodicLock s.namespace_), res⟩])
    ∧ (∀ r : Reply, (lockStep c s w).1 = .ok r → r ≠ Reply.nil →
        (scanStep c s (lockStep c s w).2).1 = .error e →
        ∃ w' : World,
          ClearOutdatedScheduledJobs c s w = some (some e, w')
          ∧ ∀ call ∈ newCalls c s w, call.op.isDelete = false) := by
  have hrun := run_eq c s w hpool
  constructor
  · intro hset
    rw [hset, afterLock_error] at hrun
    refine ⟨_, ((lockStep c s w).2.issue c (.del (c.KeyPeriodicLock s.namespace_))).1, hrun, ?_⟩
    apply newCalls_eq c s w _ _ _ hrun
    rw [unlockStep_trace, lockStep_trace, hset]
    simp
  · intro r hset hr hscan
    rw [hset, afterLock_scan_error c s _ r e hr hscan] at hrun
    refine ⟨_, hrun, ?_⟩
    obtain ⟨_, _, hsc⟩ := scanStep_effect c s (lockStep c s w).2
    rcases hsc with ⟨_, ht⟩ | ⟨values, items, _, _, hv3, _⟩
    · rcases ht with ht | ⟨lo, hi, res, ht⟩
      · have hnew := newCalls_eq c s w _ _
          [⟨.set (c.KeyPeriodicLock s.namespace_) (w.clock w.ticks) 30, .ok r⟩,
           ⟨.del (c.KeyPeriodicLock s.namespace_),
             ((scanStep c s (lockStep c s w).2).2.issue c
               (.del (c.KeyPeriodicLock s.namespace_))).1⟩] hrun
          (by rw [unlockStep_trace, ht, lockStep_trace, hset]; simp)
        rw [hnew]
        intro call hc
        simp only [List.mem_cons, List.mem_singleton, List.not_mem_nil, or_false] at hc
        rcases hc with rfl | rfl <;> rfl
      · have hnew := newCalls_eq c s w _ _
          [⟨.set (c.KeyPeriodicLock s.namespace_) (w.clock w.ticks) 30, .ok r⟩,
           ⟨.zrangebyscore (c.RedisKeyScheduled s.namespace_) lo hi, res⟩,
           ⟨.del (c.KeyPeriodicLock s.namespace_),
             ((scanStep c s (lockStep c s w).2).2.issue c
               (.del (c.KeyPeriodicLock s.namespace_))).1⟩] hrun
          (by rw [unlockStep_trace, ht, lockStep_trace, hset]; simp)
        rw [hnew]
        intro call hc
        simp only [List.mem_cons, List.mem_singleton, List.not_mem_nil, or_false] at hc
        rcases hc with rfl | rfl | rfl <;> rfl
    · rw [hscan] at hv3
      cases hv3

/-- C7 on the example: the first request (the `SET`) fails in one world, the second (the
range query) in another; both calls return `conn reset` with three stale items left
alone. -/
theorem store_errors_abort_witness :
    (∃ (w' : World) (res : Except GoError Reply),
        ClearOutdatedScheduledJobs exampleCollab exampleSweeper
            (exampleWorld [([1], 10), ([2], 20), ([3], 30)] false (failAt 0))
          = some (some (.ext 9 "conn reset"), w')
        ∧ newCalls exampleCollab exampleSweeper
              (exampleWorld [([1], 10), ([2], 20), ([3], 30)] false (failAt 0))
            = [⟨.set "ns:period:lock" 1000 30, .error (.ext 9 "conn reset")⟩,
               ⟨.del "ns:period:lock", res⟩])
    ∧ (∃ w' : World,
        ClearOutdatedScheduledJobs exampleCollab exampleSweeper
            (exampleWorld [([1], 10), ([2], 20), ([3], 30)] false (failAt 1))
          = some (some (.ext 9 "conn reset"), w')
        ∧ ∀ call ∈ newCalls exampleCollab exampleSweeper
              (exampleWorld [([1], 10), ([2], 20), ([3], 30)] false (failAt 1)),
            call.op.isDelete = false) :=
  ⟨(store_errors_abort exampleCollab exampleSweeper
      (exampleWorld [([1], 10), ([2], 20), ([3], 30)] false (failAt 0)) (.ext 9 "conn reset")
      rfl).1 (by decide),
   (store_errors_abort exampleCollab exampleSweeper
      (exampleWorld [([1], 10), ([2], 20), ([3], 30)] false (failAt 1)) (.ext 9 "conn reset")
      rfl).2 Reply.ok (by decide) (by decide) (by decide)⟩

/-! ## The combined error -/

theorem perItemFailures_swept (c : Collab) (s : Sweeper) (w : World) (r : Reply)
    (items : List JobScore) (hpool : s.redisPool = Pool.live)
    (hset : (lockStep c s w).1 = .ok r) (hr : r ≠ Reply.nil)
    (hscan : (scanStep c s (lockStep c s w).2).1 = .ok items) :
    ∃ w' : World,
      ClearOutdatedScheduledJobs c s w = some (reduceErrors (perItemFailures c s w items), w')
      ∧ deleteRequests (newCalls c s w) = items.filterMap (requestOf c)
      ∧ (deleteResults (newCalls c s w)).length = (items.filterMap (requestOf c)).length
      ∧ (sweepItems c items [] (scanStep c s (lockStep c s w).2).2).1 = perItemFailures c s w items
      ∧ (outcomes c items (deleteResults (newCalls c s w))).length = items.length := by
  obtain ⟨w', values, calls, res, h1, h2, _, _, h5, h6, _, _, h9, _⟩ :=
    run_swept c s w r items hpool hset hr hscan
  have hdel := deleteResults_swept
    ⟨.set (c.KeyPeriodicLock s.namespace_) (w.clock w.ticks) 30, .ok r⟩
    ⟨.zrangebyscore (c.RedisKeyScheduled s.namespace_) 0 (w.clock (w.ticks + 1)),
      .ok (.array values)⟩
    ⟨.del (c.KeyPeriodicLock s.namespace_), res⟩ calls rfl rfl rfl
    (requests_isDelete c items calls h5)
  rw [← h2] at hdel
  have hp : perItemFailures c s w items
      = (outcomes c items (calls.map (fun call => call.res))).filterMap ItemOutcome.failure := by
    unfold perItemFailures
    rw [hdel.1]
  refine ⟨w', ?_, ?_, ?_, ?_, ?_⟩
  · rw [hp]; exact h1
  · rw [hdel.2, h5]
  · rw [hdel.1, ← h5]; simp
  · rw [hp]; exact h9
  · rw [hdel.1]; exact h6

/-- C4: when the lock is acquired, the scan succeeds and the per-item failures of the
pass are `e1, ..., en` in encounter order with `n ≥ 2`, the call returns an error whose
message is `e1.Error() + ", " + ... + ", " + en.Error()`: every message once, in
encounter order, joined by `", "`. -/
theorem combined_error_text (c : Collab) (s : Sweeper) (w : World) (r : Reply)
    (items : List JobScore) (hpool : s.redisPool = Pool.live)
    (hset : (lockStep c s w).1 = .ok r) (hr : r ≠ Reply.nil)
    (hscan : (scanStep c s (lockStep c s w).2).1 = .ok items)
    (hn : 2 ≤ (perItemFailures c s w items).length) :
    ∃ (err : GoError) (w' : World),
      ClearOutdatedScheduledJobs c s w = some (some err, w')
      ∧ err.Error = String.intercalate ", " ((perItemFailures c s w items).map GoError.Error) := by
  obtain ⟨w', h1, _⟩ := perItemFailures_swept c s w r items hpool hset hr hscan
  rw [reduceErrors_many _ hn] at h1
  exact ⟨_, w', h1, rfl⟩

/-- C4 on the example: of three stale items the first is not deleted (`conn reset`) and
the second does not decode; the call returns the two messages joined. -/
theorem combined_error_text_witness :
    2 ≤ (perItemFailures exampleCollab exampleSweeper
          (exampleWorld [([1], 10), ([9], 20), ([3], 30)] false (failAt 2))
          [⟨[1], 10⟩, ⟨[9], 20⟩, ⟨[3], 30⟩]).length
    ∧ ∃ (err : GoError) (w' : World),
      ClearOutdatedScheduledJobs exampleCollab exampleSweeper
          (exampleWorld [([1], 10), ([9], 20), ([3], 30)] false (failAt 2)) = some (some err, w')
      ∧ err.Error = String.intercalate ", "
          ((perItemFailures exampleCollab exampleSweeper
            (exampleWorld [([1], 10), ([9], 20), ([3], 30)] false (failAt 2))
            [⟨[1], 10⟩, ⟨[9], 20⟩, ⟨[3], 30⟩]).map GoError.Error) :=
  ⟨by decide,
   combined_error_text exampleCollab exampleSweeper
    (exampleWorld [([1], 10), ([9], 20), ([3], 30)] false (failAt 2)) Reply.ok
    [⟨[1], 10⟩, ⟨[9], 20⟩, ⟨[3], 30⟩] rfl (by decide) (by decide) (by decide) (by decide)⟩

/-! ## One failure does not stop the loop -/

/-- When every item that decodes has its result, the failures of the outcomes are as
many as the items that do not decode plus the results that are errors. -/
theorem outcomes_failures_length (c : Collab) :
    ∀ (items : List JobScore) (results : List (Except GoError Reply)),
      results.length = (items.filterMap (requestOf c)).length →
      ((outcomes c items results).filterMap ItemOutcome.failure).length
        = (items.filter (fun it => (requestOf c it).isNone)).length
          + (results.filter failed).length := by
  intro items
  induction items with
  | nil =>
    intro results h
    have : results = [] := List.length_eq_zero.mp (by simpa using h)
    subst this
    simp [outcomes]
  | cons it rest ih =>
    intro results h
    cases hd : c.DeSerializeJob it.JobBytes with
    | error err =>
      have hreq : requestOf c it = none := by simp [requestOf, hd]
      rw [List.filterMap_cons_none hreq] at h
      simp only [outcomes, hd, List.filterMap_cons, ItemOutcome.failure, List.filter_cons, hreq,
        Option.isNone_none, if_true, List.length_cons]
      rw [ih results h]
      omega
    | ok j =>
      have hreq : requestOf c it = some (.deleteScheduledJob it.Score j.ID) := by
        simp [requestOf, hd]
      rw [List.filterMap_cons_some hreq] at h
      match results, h with
      | .error err :: results, h =>
        simp only [List.length_cons, Nat.add_right_cancel_iff] at h
        simp only [outcomes, hd, List.filterMap_cons, ItemOutcome.failure, List.filter_cons, hreq,
          Option.isNone_some, failed, if_true, List.length_cons]
        rw [ih results h]
        simp
        omega
      | .ok reply :: results, h =>
        simp only [List.length_cons, Nat.add_right_cancel_iff] at h
        simp only [outcomes, hd, List.filterMap_cons, ItemOutcome.failure, List.filter_cons, hreq,
          Option.isNone_some, failed]
        rw [ih results h]
        simp

/-- C6: when the lock is acquired and the scan returns `items`, the `DeleteScheduledJob`
requests of the call are, in scan order, exactly one request (score of the item, ID of
the decoded job) for every item whose bytes decode, whatever happened to earlier items;
every item gets its outcome; the errors the loop records are the failures of those
outcomes in order, one for each item that does not decode (and gets no request) and
one for each request that returns an error. -/
theorem per_item_failure_never_aborts (c : Collab) (s : Sweeper) (w : World) (r : Reply)
    (items : List JobScore) (hpool : s.redisPool = Pool.live)
    (hset : (lockStep c s w).1 = .ok r) (hr : r ≠ Reply.nil)
    (hscan : (scanStep c s (lockStep c s w).2).1 = .ok items) :
    deleteRequests (newCalls c s w)
        = items.filterMap (fun it =>
            match c.DeSerializeJob it.JobBytes with
            | .error _ => none
            | .ok j => some (.deleteScheduledJob it.Score j.ID))
    ∧ (outcomes c items (deleteResults (newCalls c s w))).length = items.length
    ∧ (sweepItems c items [] (scanStep c s (lockStep c s w).2).2).1 = perItemFailures c s w items
    ∧ (perItemFailures c s w items).length
        = (items.filter (fun it => failedDecode (c.DeSerializeJob it.JobBytes))).length
          + ((deleteResults (newCalls c s w)).filter failed).length := by
  obtain ⟨w', _, h2, h3, h4, h5⟩ := perItemFailures_swept c s w r items hpool hset hr hscan
  refine ⟨h2, h5, h4, ?_⟩
  unfold perItemFailures
  rw [outcomes_failures_length c items _ h3]
  congr 2
  apply List.filter_congr
  intro it _
  unfold requestOf failedDecode
  cases c.DeSerializeJob it.JobBytes <;> rfl

/-- C6 on the example: the first of three items is not deleted, the second does not
decode, the third is still requested. -/
theorem per_item_failure_never_aborts_witness :
    deleteRequests (newCalls exampleCollab exampleSweeper
        (exampleWorld [([1], 10), ([9], 20), ([3], 30)] false (failAt 2)))
      = [.deleteScheduledJob 10 "a", .deleteScheduledJob 30 "c"]
    ∧ (outcomes exampleCollab [⟨[1], 10⟩, ⟨[9], 20⟩, ⟨[3], 30⟩]
        (deleteResults (newCalls exampleCollab exampleSweeper
          (exampleWorld [([1], 10), ([9], 20), ([3], 30)] false (failAt 2))))).length = 3
    ∧ (sweepItems exampleCollab [⟨[1], 10⟩, ⟨[9], 20⟩, ⟨[3], 30⟩] []
          (scanStep exampleCollab exampleSweeper
            (lockStep exampleCollab exampleSweeper
              (exampleWorld [([1], 10), ([9], 20), ([3], 30)] false (failAt 2))).2).2).1
        = perItemFailures exampleCollab exampleSweeper
            (exampleWorld [([1], 10), ([9], 20), ([3], 30)] false (failAt 2))
            [⟨[1], 10⟩, ⟨[9], 20⟩, ⟨[3], 30⟩]
    ∧ (perItemFailures exampleCollab exampleSweeper
          (exampleWorld [([1], 10), ([9], 20), ([3], 30)] false (failAt 2))
          [⟨[1], 10⟩, ⟨[9], 20⟩, ⟨[3], 30⟩]).length = 1 + 1 :=
  per_item_failure_never_aborts exampleCollab exampleSweeper
    (exampleWorld [([1], 10), ([9], 20), ([3], 30)] false (failAt 2)) Reply.ok
    [⟨[1], 10⟩, ⟨[9], 20⟩, ⟨[3], 30⟩] rfl (by decide) (by decide) (by decide)

/-! ## A single failure -/

/-- The three ways the body of the loop can go for one item. -/
theorem sweepItem_cases (c : Collab) (it : JobScore) (errs : List GoError) (w : World) :
    (∃ e, c.DeSerializeJob it.JobBytes = .error e ∧ sweepItem c it errs w = (errs ++ [e], w))
    ∨ (∃ j e, c.DeSerializeJob it.JobBytes = .ok j
        ∧ (w.issue c (.deleteScheduledJob it.Score j.ID)).1 = .error e
        ∧ sweepItem c it errs w
            = (errs ++ [e],
                (w.issue c (.deleteScheduledJob it.Score j.ID)).2.log (.cleared j.ID it.Score)))
    ∨ (∃ j reply, c.DeSerializeJob it.JobBytes = .ok j
        ∧ (w.issue c (.deleteScheduledJob it.Score j.ID)).1 = .ok reply
        ∧ sweepItem c it errs w
            = (errs,
                (w.issue c (.deleteScheduledJob it.Score j.ID)).2.log (.cleared j.ID it.Score))) := by
  cases hd : c.DeSerializeJob it.JobBytes with
  | error e => exact Or.inl ⟨e, rfl, by simp [sweepItem, hd]⟩
  | ok j =>
    cases hr : (w.issue c (.deleteScheduledJob it.Score j.ID)).1 with
    | error e => exact Or.inr (Or.inl ⟨j, e, rfl, hr, by simp [sweepItem, hd, hr]⟩)
    | ok reply => exact Or.inr (Or.inr ⟨j, reply, rfl, hr, by simp [sweepItem, hd, hr]⟩)

/-- The loop only ever appends to the collected errors. -/
theorem sweepItems_errs_mono (c : Collab) (items : List JobScore) (errs : List GoError)
    (w : World) : ∃ extra, (sweepItems c items errs w).1 = errs ++ extra := by
  obtain ⟨calls, _, _, h3, _⟩ := sweepItems_spec c items errs w
  exact ⟨_, h3⟩

theorem sweepItems_trace_ext (c : Collab) (items : List JobScore) (errs : List GoError)
    (w : World) : ∃ calls, (sweepItems c items errs w).2.trace = w.trace ++ calls := by
  obtain ⟨calls, h1, _⟩ := sweepItems_spec c items errs w
  exact ⟨calls, h1⟩

theorem sweepItems_cons (c : Collab) (it : JobScore) (rest : List JobScore)
    (errs : List GoError) (w : World) :
    sweepItems c (it :: rest) errs w
      = sweepItems c rest (sweepItem c it errs w).1 (sweepItem c it errs w).2 := rfl

theorem sweepItems_append (c : Collab) :
    ∀ (pre post : List JobScore) (errs : List GoError) (w : World),
      sweepItems c (pre ++ post) errs w
        = sweepItems c post (sweepItems c pre errs w).1 (sweepItems c pre errs w).2 := by
  intro pre
  induction pre with
  | nil => intro post errs w; rfl
  | cons it pre ih =>
    intro post errs w
    rw [List.cons_append, sweepItems_cons, sweepItems_cons, ih]

theorem exec_delete (c : Collab) (score : Int) (id : String) (st : Store) :
    (exec c (.deleteScheduledJob score id) st).2 = (c.DeleteScheduledJob st score id).2
    ∧ (∀ reply, (exec c (.deleteScheduledJob score id) st).1 = .ok reply →
        (c.DeleteScheduledJob st score id).1 = none) := by
  unfold exec
  simp only
  split
  · rename_i st' h
    simp [h]
  · rename_i e st' h
    simp [h]

theorem issue_delete_members (c : Collab) (key : String) (hc : DeleteContract c key)
    (w : World) (score : Int) (id : String) :
    ∀ m ∈ (w.issue c (.deleteScheduledJob score id)).2.store.members key,
      m ∈ w.store.members key := by
  intro m hm
  rcases issue_store_cases c (.deleteScheduledJob score id) w with h | h
  · rwa [h] at hm
  · rw [h, (exec_delete c score id w.store).1] at hm
    exact hc.shrinks _ _ _ m hm

theorem sweepItem_members (c : Collab) (key : String) (hc : DeleteContract c key)
    (it : JobScore) (errs : List GoError) (w : World) :
    ∀ m ∈ (sweepItem c it errs w).2.store.members key, m ∈ w.store.members key := by
  intro m hm
  rcases sweepItem_cases c it errs w with ⟨e, _, h⟩ | ⟨j, e, _, _, h⟩ | ⟨j, reply, _, _, h⟩
  · rwa [h] at hm
  · rw [h] at hm
    exact issue_delete_members c key hc w _ _ m hm
  · rw [h] at hm
    exact issue_delete_members c key hc w _ _ m hm

theorem sweepItems_members (c : Collab) (key : String) (hc : DeleteContract c key) :
    ∀ (items : List JobScore) (errs : List GoError) (w : World),
      ∀ m ∈ (sweepItems c items errs w).2.store.members key, m ∈ w.store.members key := by
  intro items
  induction items with
  | nil => intro errs w m hm; exact hm
  | cons it rest ih =>
    intro errs w m hm
    rw [sweepItems_cons] at hm
    exact sweepItem_members c key hc it errs w m (ih _ _ m hm)

theorem unlockStep_members (c : Collab) (s : Sweeper) (key : String) (w : World) :
    ∀ m ∈ (unlockStep c s w).store.members key, m ∈ w.store.members key := by
  intro m hm
  unfold unlockStep at hm
  rcases issue_store_cases c (.del (c.KeyPeriodicLock s.namespace_)) w with h | h
  · rwa [h] at hm
  · rw [h] at hm
    by_cases hk : key = c.KeyPeriodicLock s.namespace_
    · subst hk
      unfold Store.members at hm
      rw [exec_del_absent] at hm
      cases hm
    · unfold Store.members at hm ⊢
      rwa [exec_del_other c _ _ _ hk] at hm

/-- A stretch of the loop that records no error: every item of it decodes, its deletion
request is among the requests of the stretch and returned no error, and (under the
contract of the client) the item is not in the index afterwards. -/
theorem sweepItems_clean (c : Collab) (key : String) :
    ∀ (seg : List JobScore) (errs : List GoError) (w : World),
      (sweepItems c seg errs w).1 = errs →
      ∃ calls, (sweepItems c seg errs w).2.trace = w.trace ++ calls
        ∧ ∀ it ∈ seg, ∃ j reply, c.DeSerializeJob it.JobBytes = .ok j
            ∧ (⟨.deleteScheduledJob it.Score j.ID, .ok reply⟩ : Call) ∈ calls
            ∧ (DeleteContract c key →
                (it.JobBytes, it.Score) ∉ (sweepItems c seg errs w).2.store.members key) := by
  intro seg
  induction seg with
  | nil => intro errs w _; exact ⟨[], by simp [sweepItems], by simp⟩
  | cons it0 rest ih =>
    intro errs w h
    rw [sweepItems_cons] at h ⊢
    obtain ⟨extra, hextra⟩ := sweepItems_errs_mono c rest (sweepItem c it0 errs w).1
      (sweepItem c it0 errs w).2
    have hfail : ∀ e, (sweepItem c it0 errs w).1 = errs ++ [e] → False := by
      intro e he
      rw [h, he] at hextra
      have := congrArg List.length hextra
      simp at this
    rcases sweepItem_cases c it0 errs w with ⟨e, _, h0⟩ | ⟨j, e, _, _, h0⟩ | ⟨j, reply, hd, hr, h0⟩
    · exact absurd (congrArg Prod.fst h0) (fun x => hfail e x)
    · exact absurd (congrArg Prod.fst h0) (fun x => hfail e x)
    · rw [h0] at h ⊢
      obtain ⟨calls, htr, hall⟩ := ih _ _ h
      refine ⟨⟨.deleteScheduledJob it0.Score j.ID, .ok reply⟩ :: calls, ?_, ?_⟩
      · rw [htr]
        simp [World.log, issue_trace, hr]
      · intro it hit
        rcases List.mem_cons.mp hit with rfl | hit
        · refine ⟨j, reply, hd, List.mem_cons_self _ _, ?_⟩
          intro hc hmem
          have hmem1 := sweepItems_members c key hc rest _ _ _ hmem
          have hio := issue_ok c _ w reply hr
          simp only [World.log] at hmem1
          rw [hio.2, (exec_delete c it.Score j.ID w.store).1] at hmem1
          have hnone := (exec_delete c it.Score j.ID w.store).2 reply hio.1
          exact hc.removes _ _ _ hnone _ hmem1 ⟨rfl, hd⟩
        · obtain ⟨j', reply', hd', hcall, hrem⟩ := hall it hit
          exact ⟨j', reply', hd', List.mem_cons_of_mem _ hcall, hrem⟩

/-- A loop that records exactly one more error `e` splits at the one item that failed:
the stretch before it and the stretch after it record nothing. -/
theorem sweepItems_split (c : Collab) :
    ∀ (items : List JobScore) (errs : List GoError) (w : World) (e : GoError),
      (sweepItems c items errs w).1 = errs ++ [e] →
      ∃ (pre post : List JobScore) (bad : JobScore), items = pre ++ bad :: post
        ∧ (sweepItems c pre errs w).1 = errs
        ∧ (sweepItem c bad errs (sweepItems c pre errs w).2).1 = errs ++ [e]
        ∧ (sweepItems c post (errs ++ [e])
            (sweepItem c bad errs (sweepItems c pre errs w).2).2).1 = errs ++ [e] := by
  intro items
  induction items with
  | nil =>
    intro errs w e h
    have := congrArg List.length h
    simp [sweepItems] at this
  | cons it rest ih =>
    intro errs w e h
    rw [sweepItems_cons] at h
    obtain ⟨extra, hextra⟩ := sweepItems_errs_mono c rest (sweepItem c it errs w).1
      (sweepItem c it errs w).2
    have hbad : ∀ e', (sweepItem c it errs w).1 = errs ++ [e'] →
        ∃ (pre post : List JobScore) (bad : JobScore), it :: rest = pre ++ bad :: post
          ∧ (sweepItems c pre errs w).1 = errs
          ∧ (sweepItem c bad errs (sweepItems c pre errs w).2).1 = errs ++ [e]
          ∧ (sweepItems c post (errs ++ [e])
              (sweepItem c bad errs (sweepItems c pre errs w).2).2).1 = errs ++ [e] := by
      intro e' he'
      rw [h, he', List.append_assoc] at hextra
      have hx := List.append_cancel_left hextra
      simp only [List.singleton_append, List.cons.injEq] at hx
      obtain ⟨rfl, _⟩ := hx
      refine ⟨[], rest, it, rfl, rfl, he', ?_⟩
      show (sweepItems c rest (errs ++ [e]) (sweepItem c it errs w).2).1 = errs ++ [e]
      rw [he'] at h
      exact h
    rcases sweepItem_cases c it errs w with ⟨e', _, h0⟩ | ⟨j, e', _, _, h0⟩ | ⟨j, reply, _, _, h0⟩
    · exact hbad e' (congrArg Prod.fst h0)
    · exact hbad e' (congrArg Prod.fst h0)
    · have h1 : (sweepItem c it errs w).1 = errs := congrArg Prod.fst h0
      rw [h1] at h
      obtain ⟨pre, post, bad, hsplit, hp, hb, hq⟩ := ih errs (sweepItem c it errs w).2 e h
      refine ⟨it :: pre, post, bad, by rw [hsplit]; rfl, ?_, ?_, ?_⟩
      · rw [sweepItems_cons, h1]; exact hp
      · rw [sweepItems_cons, h1]; exact hb
      · rw [sweepItems_cons, h1]; exact hq

/-- C5: when the lock is acquired, the scan returns `items` and exactly one of them
fails, with error `e` (its decode fails, or its `DeleteScheduledJob` returns `e`), the
call returns that very value `e`; every other scanned item decoded and had its deletion
requested with no error returned, and so (by the contract of the client) is not in the
scheduled index when the call returns. -/
theorem single_failure_verbatim (c : Collab) (s : Sweeper) (w : World) (r : Reply)
    (items : List JobScore) (e : GoError) (hpool : s.redisPool = Pool.live)
    (hset : (lockStep c s w).1 = .ok r) (hr : r ≠ Reply.nil)
    (hscan : (scanStep c s (lockStep c s w).2).1 = .ok items)
    (hone : perItemFailures c s w items = [e]) :
    ∃ (w' : World) (pre post : List JobScore) (bad : JobScore),
      ClearOutdatedScheduledJobs c s w = some (some e, w')
      ∧ items = pre ++ bad :: post
      ∧ (c.DeSerializeJob bad.JobBytes = .error e
          ∨ ∃ j, c.DeSerializeJob bad.JobBytes = .ok j
              ∧ (⟨.deleteScheduledJob bad.Score j.ID, .error e⟩ : Call) ∈ newCalls c s w)
      ∧ (∀ it ∈ pre ++ post, ∃ j reply, c.DeSerializeJob it.JobBytes = .ok j
          ∧ (⟨.deleteScheduledJob it.Score j.ID, .ok reply⟩ : Call) ∈ newCalls c s w)
      ∧ (DeleteContract c (c.RedisKeyScheduled s.namespace_) →
          ∀ it ∈ pre ++ post,
            (it.JobBytes, it.Score) ∉ w'.store.members (c.RedisKeyScheduled s.namespace_)) := by
  obtain ⟨w', values, calls, res, h1, h2, _, _, _, _, _, hw', h9, htr⟩ :=
    run_swept c s w r items hpool hset hr hscan
  obtain ⟨_, _, _, _, h4, _⟩ := perItemFailures_swept c s w r items hpool hset hr hscan
  rw [hone] at h4
  rw [← h9, h4] at h1
  obtain ⟨pre, post, bad, hsplit, hp, hb, hq⟩ :=
    sweepItems_split c items [] (scanStep c s (lockStep c s w).2).2 e (by simpa using h4)
  simp only [List.nil_append] at hb hq
  obtain ⟨callsPre, htrPre, hallPre⟩ :=
    sweepItems_clean c (c.RedisKeyScheduled s.namespace_) pre [] _ hp
  obtain ⟨callsPost, htrPost, hallPost⟩ :=
    sweepItems_clean c (c.RedisKeyScheduled s.namespace_) post [e] _ hq
  have hL : sweepItems c items [] (scanStep c s (lockStep c s w).2).2
      = sweepItems c post (sweepItem c bad [] (sweepItems c pre []
          (scanStep c s (lockStep c s w).2).2).2).1
          (sweepItem c bad [] (sweepItems c pre [] (scanStep c s (lockStep c s w).2).2).2).2 := by
    rw [hsplit, sweepItems_append, sweepItems_cons, hp]
  rw [hb] at hL
  have hbadcases : ∃ callsBad,
      (sweepItem c bad [] (sweepItems c pre [] (scanStep c s (lockStep c s w).2).2).2).2.trace
        = (sweepItems c pre [] (scanStep c s (lockStep c s w).2).2).2.trace ++ callsBad
      ∧ (c.DeSerializeJob bad.JobBytes = .error e
          ∨ ∃ j, c.DeSerializeJob bad.JobBytes = .ok j
              ∧ (⟨.deleteScheduledJob bad.Score j.ID, .error e⟩ : Call) ∈ callsBad) := by
    rcases sweepItem_cases c bad [] (sweepItems c pre [] (scanStep c s (lockStep c s w).2).2).2
      with ⟨e', hd, h0⟩ | ⟨j, e', hd, hres, h0⟩ | ⟨j, reply, _, _, h0⟩
    · rw [h0] at hb
      simp only [List.nil_append, List.cons.injEq, and_true] at hb
      subst hb
      exact ⟨[], by rw [h0]; simp, Or.inl hd⟩
    · rw [h0] at hb
      simp only [List.nil_append, List.cons.injEq, and_true] at hb
      subst hb
      refine ⟨[⟨.deleteScheduledJob bad.Score j.ID, .error e'⟩], ?_, Or.inr ⟨j, hd, by simp⟩⟩
      rw [h0]
      simp [World.log, issue_trace, hres]
    · rw [h0] at hb
      simp at hb
  obtain ⟨callsBad, htrBad, hbadfact⟩ := hbadcases
  have hcalls : calls = callsPre ++ callsBad ++ callsPost := by
    rw [hL, htrPost, htrBad, htrPre] at htr
    simp only [List.append_assoc] at htr
    have := List.append_cancel_left htr
    rw [← this]
    simp
  refine ⟨w', pre, post, bad, by simpa [reduceErrors] using h1, hsplit, ?_, ?_, ?_⟩
  · rcases hbadfact with hd | ⟨j, hd, hmem⟩
    · exact Or.inl hd
    · refine Or.inr ⟨j, hd, ?_⟩
      rw [h2, hcalls]
      simp [hmem]
  · intro it hit
    rcases List.mem_append.mp hit with hit | hit
    · obtain ⟨j, reply, hd, hmem, _⟩ := hallPre it hit
      refine ⟨j, reply, hd, ?_⟩
      rw [h2, hcalls]
      simp [hmem]
    · obtain ⟨j, reply, hd, hmem, _⟩ := hallPost it hit
      refine ⟨j, reply, hd, ?_⟩
      rw [h2, hcalls]
      simp [hmem]
  · intro hc it hit hmem
    rw [hw'] at hmem
    have hmem1 := unlockStep_members c s _ _ _ hmem
    rcases List.mem_append.mp hit with hit | hit
    · obtain ⟨_, _, _, _, hrem⟩ := hallPre it hit
      rw [hL] at hmem1
      have hmem2 := sweepItems_members c _ hc post _ _ _ hmem1
      have hmem3 := sweepItem_members c _ hc bad _ _ _ hmem2
      exact hrem hc hmem3
    · obtain ⟨_, _, _, _, hrem⟩ := hallPost it hit
      rw [hL] at hmem1
      exact hrem hc hmem1

/-- The client of the example keeps the contract. -/
theorem exampleDelete_contract : DeleteContract exampleCollab "ns:scheduled" := by
  constructor
  · intro st score id m hm
    show m ∈ Store.members st "ns:scheduled"
    have hm' : m ∈ Store.members (exampleDelete st score id).2 "ns:scheduled" := hm
    unfold exampleDelete Store.members at hm'
    unfold Store.members
    cases h : st "ns:scheduled" with
    | none => simp [h] at hm'
    | some en =>
      cases en with
      | str v => simp [h] at hm'
      | zset ms =>
        simp only [h, Store.put, if_true] at hm'
        exact (List.mem_filter.mp hm').1
  · intro st score id _ m hm
    have hm' : m ∈ Store.members (exampleDelete st score id).2 "ns:scheduled" := hm
    show ¬ (m.2 = score ∧ exampleDecode m.1 = .ok ⟨id⟩)
    unfold exampleDelete Store.members at hm'
    cases h : st "ns:scheduled" with
    | none => simp [h] at hm'
    | some en =>
      cases en with
      | str v => simp [h] at hm'
      | zset ms =>
        simp only [h, Store.put, if_true] at hm'
        have := (List.mem_filter.mp hm').2
        simp only [Bool.not_eq_true', Bool.and_eq_false_imp, decide_eq_true_eq,
          decide_eq_false_iff_not] at this
        exact fun hboth => this hboth.1 hboth.2

/-- C5 on the example: of three stale items the deletion of the second fails with
`conn reset`; the call returns that error, the other two are requested and gone. -/
theorem single_failure_verbatim_witness :
    perItemFailures exampleCollab exampleSweeper
        (exampleWorld [([1], 10), ([2], 20), ([3], 30)] false (failAt 3))
        [⟨[1], 10⟩, ⟨[2], 20⟩, ⟨[3], 30⟩] = [.ext 9 "conn reset"]
    ∧ ∃ (w' : World) (pre post : List JobScore) (bad : JobScore),
      ClearOutdatedScheduledJobs exampleCollab exampleSweeper
          (exampleWorld [([1], 10), ([2], 20), ([3], 30)] false (failAt 3))
        = some (some (.ext 9 "conn reset"), w')
      ∧ [⟨[1], 10⟩, ⟨[2], 20⟩, ⟨[3], 30⟩] = pre ++ bad :: post
      ∧ (exampleCollab.DeSerializeJob bad.JobBytes = .error (.ext 9 "conn reset")
          ∨ ∃ j, exampleCollab.DeSerializeJob bad.JobBytes = .ok j
              ∧ (⟨.deleteScheduledJob bad.Score j.ID, .error (.ext 9 "conn reset")⟩ : Call)
                  ∈ newCalls exampleCollab exampleSweeper
                      (exampleWorld [([1], 10), ([2], 20), ([3], 30)] false (failAt 3)))
      ∧ (∀ it ∈ pre ++ post, ∃ j reply, exampleCollab.DeSerializeJob it.JobBytes = .ok j
          ∧ (⟨.deleteScheduledJob it.Score j.ID, .ok reply⟩ : Call)
              ∈ newCalls exampleCollab exampleSweeper
                  (exampleWorld [([1], 10), ([2], 20), ([3], 30)] false (failAt 3)))
      ∧ (DeleteContract exampleCollab "ns:scheduled" →
          ∀ it ∈ pre ++ post, (it.JobBytes, it.Score) ∉ w'.store.members "ns:scheduled") :=
  ⟨by decide,
   single_failure_verbatim exampleCollab exampleSweeper
    (exampleWorld [([1], 10), ([2], 20), ([3], 30)] false (failAt 3)) Reply.ok
    [⟨[1], 10⟩, ⟨[2], 20⟩, ⟨[3], 30⟩] (.ext 9 "conn reset") rfl (by decide) (by decide)
    (by decide) (by decide)⟩

/-- The example of C5 evaluated: the error returned and the index left behind. -/
theorem single_failure_example :
    (ClearOutdatedScheduledJobs exampleCollab exampleSweeper
        (exampleWorld [([1], 10), ([2], 20), ([3], 30)] false (failAt 3))).map
      (fun out => (out.1, out.2.store.members "ns:scheduled"))
      = some (some (.ext 9 "conn reset"), [([2], 20)]) := by
  decide

/-! ## Scores on the wire: formatting and parsing -/

theorem digitByte_toNat (d : Nat) (h : d < 10) : (digitByte d).toNat = 48 + d := by
  interval_cases d <;> rfl

theorem parseDigits_append (xs ys : Bytes) : ∀ acc,
    parseDigits (xs ++ ys) acc = (parseDigits xs acc).bind (fun a => parseDigits ys a) := by
  induction xs with
  | nil => intro acc; rfl
  | cons b bs ih =>
    intro acc
    simp only [List.cons_append, parseDigits]
    split
    · exact ih _
    · rfl

theorem parseDigits_digit (d acc : Nat) (h : d < 10) :
    parseDigits [digitByte d] acc = some (acc * 10 + d) := by
  have ht := digitByte_toNat d h
  simp only [parseDigits, ht]
  rw [if_pos (by omega)]
  congr 2
  omega

/-- The digits of `n` read back give `n`, when the fuel exceeds `n`. -/
theorem parseDigits_natDigits : ∀ (fuel n : Nat), n < fuel →
    parseDigits (natDigits fuel n) 0 = some n := by
  intro fuel
  induction fuel with
  | zero => intro n h; omega
  | succ f ih =>
    intro n h
    unfold natDigits
    by_cases hn : n < 10
    · rw [if_pos hn, parseDigits_digit n 0 hn]
      simp
    · rw [if_neg hn, parseDigits_append, ih (n / 10) (by omega)]
      simp only [Option.bind]
      rw [parseDigits_digit (n % 10) (n / 10) (Nat.mod_lt _ (by omega))]
      congr 1
      omega

/-- The text of a natural number starts with a digit. -/
theorem natDigits_head : ∀ (fuel n : Nat), n < fuel →
    ∃ d tail, d < 10 ∧ natDigits fuel n = digitByte d :: tail := by
  intro fuel
  induction fuel with
  | zero => intro n h; omega
  | succ f ih =>
    intro n h
    unfold natDigits
    by_cases hn : n < 10
    · rw [if_pos hn]
      exact ⟨n, [], hn, rfl⟩
    · rw [if_neg hn]
      obtain ⟨d, tail, hd, ht⟩ := ih (n / 10) (by omega)
      exact ⟨d, tail ++ [digitByte (n % 10)], hd, by rw [ht]; rfl⟩

/-- Parsing the plain decimal text of an integer gives it back exactly when it is an
`int64`. -/
theorem parseInt64_plainScore (v : Int) :
    parseInt64 (plainScore v) = if -(2 ^ 63) ≤ v ∧ v < 2 ^ 63 then some v else none := by
  cases v with
  | ofNat n =>
    obtain ⟨d, tail, hd, ht⟩ := natDigits_head (n + 1) n (Nat.lt_succ_self n)
    have hp := parseDigits_natDigits (n + 1) n (Nat.lt_succ_self n)
    have hb := digitByte_toNat d hd
    simp only [plainScore]
    rw [ht] at hp ⊢
    simp only [parseInt64, hb]
    rw [if_neg (by omega)]
    simp only [hp]
    have h45 : ¬ (48 + d = 45) := by omega
    simp only [h45, decide_False, Bool.false_eq_true, if_false]
    by_cases hlt : n < 2 ^ 63
    · rw [if_pos hlt, if_pos]
      · rfl
      · constructor
        · have : (0 : Int) ≤ Int.ofNat n := Int.ofNat_nonneg n
          omega
        · have : (n : Int) < 2 ^ 63 := by exact_mod_cast hlt
          exact this
    · rw [if_neg hlt, if_neg]
      intro hc
      have h2 : (n : Int) < 2 ^ 63 := hc.2
      exact hlt (by exact_mod_cast h2)
  | negSucc n =>
    obtain ⟨d, tail, _, ht⟩ := natDigits_head (n + 2) (n + 1) (Nat.lt_succ_self _)
    have hp := parseDigits_natDigits (n + 2) (n + 1) (Nat.lt_succ_self _)
    simp only [plainScore]
    rw [ht] at hp ⊢
    have h45 : (45 : UInt8).toNat = 45 := rfl
    simp only [parseInt64, h45, or_true, if_true, hp, decide_True]
    by_cases hle : n + 1 ≤ 2 ^ 63
    · rw [if_pos hle, if_pos]
      · rfl
      · constructor
        · rw [Int.negSucc_eq]
          have : ((n : Int) + 1) ≤ 2 ^ 63 := by exact_mod_cast hle
          omega
        · have : Int.negSucc n < 0 := Int.negSucc_lt_zero n
          omega
    · rw [if_neg hle, if_neg]
      intro hc
      apply hle
      have h1 := hc.1
      rw [Int.negSucc_eq] at h1
      have : ((n : Int) + 1) ≤ 2 ^ 63 := by omega
      exact_mod_cast this

/-- A text with an `e` in it is not a run of digits. -/
theorem parseDigits_none_of_mem (l : Bytes) (h : (101 : UInt8) ∈ l) :
    ∀ acc, parseDigits l acc = none := by
  induction l with
  | nil => cases h
  | cons b bs ih =>
    intro acc
    unfold parseDigits
    split
    · rename_i hb
      rcases List.mem_cons.mp h with hmem | hmem
      · rw [← hmem] at hb
        exact absurd hb.2 (by decide)
      · exact ih hmem _
    · rfl

/-- A text with an `e` in it is refused by `strconv.ParseInt`. -/
theorem parseInt64_none_of_mem (l : Bytes) (h : (101 : UInt8) ∈ l) : parseInt64 l = none := by
  cases l with
  | nil => rfl
  | cons b rest =>
    have hd : (101 : UInt8) ∈ (if b.toNat = 43 ∨ b.toNat = 45 then rest else b :: rest) := by
      split
      · rename_i hb
        rcases List.mem_cons.mp h with hmem | hmem
        · rw [← hmem] at hb
          exact absurd hb (by decide)
        · exact hmem
      · exact h
    unfold parseInt64
    simp only
    generalize (if b.toNat = 43 ∨ b.toNat = 45 then rest else b :: rest) = digits at hd
    cases digits with
    | nil => rfl
    | cons d ds =>
      simp only [parseDigits_none_of_mem (d :: ds) hd 0]

theorem mem_expText (n : Nat) : (101 : UInt8) ∈ expText n := by
  unfold expText
  simp

/-- Parsing the text of a score gives the score back exactly when the store prints it
in plain decimal, that is when its absolute value is below `10^17`. -/
theorem parseInt64_fmtScore (v : Int) :
    parseInt64 (fmtScore v) = if -(10 ^ 17) < v ∧ v < 10 ^ 17 then some v else none := by
  unfold fmtScore
  by_cases h : -(10 ^ 17) < v ∧ v < 10 ^ 17
  · rw [if_pos h, if_pos h, parseInt64_plainScore, if_pos]
    constructor <;> omega
  · rw [if_neg h, if_neg h]
    split
    · exact parseInt64_none_of_mem _ (List.mem_cons_of_mem _ (mem_expText _))
    · exact parseInt64_none_of_mem _ (mem_expText _)

/-! ## Reading the reply of a range query -/

theorem flatten_length (l : List (Bytes × Int)) : (flatten l).length = 2 * l.length := by
  induction l with
  | nil => rfl
  | cons p l ih =>
    obtain ⟨m, sc⟩ := p
    simp only [flatten, List.length_cons, ih]
    omega

/-- Pairs whose scores the store holds exactly are read back as they are. -/
theorem scanPairs_flatten_ok (l : List (Bytes × Int)) (h : ∀ p ∈ l, isExactScore p.2) :
    scanPairs (flatten l) = .ok (l.map (fun p => ⟨p.1, p.2⟩)) := by
  induction l with
  | nil => rfl
  | cons p l ih =>
    obtain ⟨m, sc⟩ := p
    have hsc : isExactScore sc := h (m, sc) (List.mem_cons_self _ _)
    have hp : parseInt64 (fmtScore sc) = some sc := by
      rw [parseInt64_fmtScore]
      unfold isExactScore at hsc
      exact if_pos (by constructor <;> omega)
    simp only [flatten, scanPairs, hp, ih (fun p hp => h p (List.mem_cons_of_mem _ hp)),
      List.map_cons]

/-- Whatever is read back from a flat list is the list of its pairs. -/
theorem scanPairs_flatten_eq (l : List (Bytes × Int)) :
    ∀ items, scanPairs (flatten l) = .ok items → items = l.map (fun p => ⟨p.1, p.2⟩) := by
  induction l with
  | nil =>
    intro items h
    simp only [flatten, scanPairs, Except.ok.injEq] at h
    rw [← h]
    rfl
  | cons p l ih =>
    obtain ⟨m, sc⟩ := p
    intro items h
    simp only [flatten, scanPairs] at h
    rw [parseInt64_fmtScore] at h
    by_cases hsc : -(10 ^ 17) < sc ∧ sc < 10 ^ 17
    · rw [if_pos hsc] at h
      simp only at h
      cases hrest : scanPairs (flatten l) with
      | error e => rw [hrest] at h; cases h
      | ok js =>
        rw [hrest] at h
        simp only [Except.ok.injEq] at h
        rw [← h, ih js hrest]
        rfl
    · rw [if_neg hsc] at h
      cases h

theorem ScanSlice_flatten_ok (l : List (Bytes × Int)) (h : ∀ p ∈ l, isExactScore p.2) :
    ScanSlice (flatten l) = .ok (l.map (fun p => ⟨p.1, p.2⟩)) := by
  unfold ScanSlice
  rw [flatten_length, if_neg (by omega)]
  exact scanPairs_flatten_ok l h

theorem ScanSlice_flatten_eq (l : List (Bytes × Int)) (items : List JobScore)
    (h : ScanSlice (flatten l) = .ok items) : items = l.map (fun p => ⟨p.1, p.2⟩) := by
  unfold ScanSlice at h
  rw [flatten_length, if_neg (by omega)] at h
  exact scanPairs_flatten_eq l items h

/-! ## The order of the range -/

theorem bytesLe_total : ∀ a b : Bytes, bytesLe a b = true ∨ bytesLe b a = true := by
  intro a
  induction a with
  | nil => intro b; left; cases b <;> rfl
  | cons x xs ih =>
    intro b
    cases b with
    | nil => right; rfl
    | cons y ys =>
      simp only [bytesLe, Bool.or_eq_true, Bool.and_eq_true, decide_eq_true_eq]
      rcases Nat.lt_trichotomy x.toNat y.toNat with h | h | h
      · left; left; exact h
      · rcases ih ys with h' | h'
        · left; right; exact ⟨h, h'⟩
        · right; right; exact ⟨h.symm, h'⟩
      · right; left; exact h

theorem bytesLe_trans : ∀ a b c : Bytes,
    bytesLe a b = true → bytesLe b c = true → bytesLe a c = true := by
  intro a
  induction a with
  | nil => intro b c _ _; cases c <;> rfl
  | cons x xs ih =>
    intro b c hab hbc
    cases b with
    | nil => simp [bytesLe] at hab
    | cons y ys =>
      cases c with
      | nil => simp [bytesLe] at hbc
      | cons z zs =>
        simp only [bytesLe, Bool.or_eq_true, Bool.and_eq_true, decide_eq_true_eq] at hab hbc ⊢
        rcases hab with h1 | ⟨h1, h1'⟩
        · rcases hbc with h2 | ⟨h2, _⟩
          · left; omega
          · left; omega
        · rcases hbc with h2 | ⟨h2, h2'⟩
          · left; omega
          · right; exact ⟨by omega, ih ys zs h1' h2'⟩

theorem zsetLe_total (a b : Bytes × Int) : zsetLe a b = true ∨ zsetLe b a = true := by
  simp only [zsetLe, Bool.or_eq_true, Bool.and_eq_true, decide_eq_true_eq]
  rcases Int.lt_trichotomy a.2 b.2 with h | h | h
  · left; left; exact h
  · rcases bytesLe_total a.1 b.1 with h' | h'
    · left; right; exact ⟨h, h'⟩
    · right; right; exact ⟨h.symm, h'⟩
  · right; left; exact h

theorem zsetLe_trans (a b c : Bytes × Int) (hab : zsetLe a b = true) (hbc : zsetLe b c = true) :
    zsetLe a c = true := by
  simp only [zsetLe, Bool.or_eq_true, Bool.and_eq_true, decide_eq_true_eq] at hab hbc ⊢
  rcases hab with h1 | ⟨h1, h1'⟩
  · rcases hbc with h2 | ⟨h2, _⟩
    · left; omega
    · left; omega
  · rcases hbc with h2 | ⟨h2, h2'⟩
    · left; omega
    · right; exact ⟨by omega, bytesLe_trans _ _ _ h1' h2'⟩

theorem zsetLe_score (a b : Bytes × Int) (h : zsetLe a b = true) : a.2 ≤ b.2 := by
  simp only [zsetLe, Bool.or_eq_true, Bool.and_eq_true, decide_eq_true_eq] at h
  rcases h with h | ⟨h, _⟩ <;> omega

/-- The range is a rearrangement of the members within the bounds. -/
theorem zrange_perm (ms : List (Bytes × Int)) (lo hi : Int) :
    (zrange ms lo hi).Perm (ms.filter (fun m => decide (lo ≤ m.2 ∧ m.2 ≤ hi))) :=
  List.perm_insertionSort _ _

/-- The range is in ascending score order. -/
theorem zrange_sorted (ms : List (Bytes × Int)) (lo hi : Int) :
    (zrange ms lo hi).Pairwise (fun a b => a.2 ≤ b.2) := by
  haveI : IsTotal (Bytes × Int) (fun a b => zsetLe a b = true) := ⟨zsetLe_total⟩
  haveI : IsTrans (Bytes × Int) (fun a b => zsetLe a b = true) := ⟨zsetLe_trans⟩
  have h := List.sorted_insertionSort (fun a b => zsetLe a b = true)
    (ms.filter (fun m => decide (lo ≤ m.2 ∧ m.2 ≤ hi)))
  exact List.Pairwise.imp (fun {a b} hab => zsetLe_score a b hab) h

theorem zrange_mem (ms : List (Bytes × Int)) (lo hi : Int) (m : Bytes × Int) :
    m ∈ zrange ms lo hi ↔ m ∈ ms ∧ lo ≤ m.2 ∧ m.2 ≤ hi := by
  rw [(zrange_perm ms lo hi).mem_iff, List.mem_filter]
  simp

/-- The range `[0, t]` of the index with scores `t-100, t-1, t, t+50`. -/
theorem zrange_example (t : Int) (h : 100 ≤ t) (m1 m2 m3 m4 : Bytes) :
    zrange [(m1, t - 100), (m2, t - 1), (m3, t), (m4, t + 50)] 0 t
      = [(m1, t - 100), (m2, t - 1), (m3, t)] := by
  have hf : [(m1, t - 100), (m2, t - 1), (m3, t), (m4, t + 50)].filter
      (fun m => decide (0 ≤ m.2 ∧ m.2 ≤ t)) = [(m1, t - 100), (m2, t - 1), (m3, t)] := by
    have h1 : (0 : Int) ≤ t - 100 ∧ t - 100 ≤ t := by omega
    have h2 : (0 : Int) ≤ t - 1 ∧ t - 1 ≤ t := by omega
    have h3 : (0 : Int) ≤ t ∧ t ≤ t := by omega
    have h4 : ¬ ((0 : Int) ≤ t + 50 ∧ t + 50 ≤ t) := by omega
    simp only [List.filter_cons, List.filter_nil, h1, h2, h3, h4, decide_True, decide_False,
      if_true, and_self, Bool.false_eq_true, if_false]
  unfold zrange
  rw [hf]
  apply List.Sorted.insertionSort_eq
  have l1 : t - 100 < t - 1 := by omega
  have l2 : t - 100 < t := by omega
  have l3 : t - 1 < t := by omega
  simp [List.Sorted, zsetLe, l1, l2, l3]

/-! ## The scan -/

/-- C8, amended: for a non-nil pool, a key that `IsEmptyStr` does not refuse and
`int64` bounds `scores[0] = lo`, `scores[1] = hi`, over a store that holds the ordered
set `ms` at the key (no key when `ms` is empty), with integer scores of absolute value
below `2^53` (those a float64 score holds exactly and the store prints in plain
decimal), and that answers the range query, `GetZsetByScore` returns without error
exactly the members with `lo ≤ score ≤ hi`, each with its own score, in ascending score
order, none with a score above `hi`; with the scores `t-100, t-1, t, t+50` (where
`100 ≤ t`) and the range `[0, t]` these are the three items with scores `t-100, t-1, t`
in that order. -/
theorem scan_range (c : Collab) (pool : Pool) (key : String) (lo hi : Int) (rest : List Int)
    (ms : List (Bytes × Int)) (w : World)
    (hpool : pool ≠ Pool.nil) (hkey : c.IsEmptyStr key = false)
    (_hlo : isInt64 lo) (_hhi : isInt64 hi)
    (hms : ∀ m ∈ ms, isExactScore m.2)
    (hstore : w.store key = some (.zset ms) ∨ (w.store key = none ∧ ms = []))
    (hfault : w.faults w.trace.length = none) :
    ∃ (items : List JobScore) (w' : World),
      GetZsetByScore c pool key (lo :: hi :: rest) w = (.ok items, w')
      ∧ (items.map (fun it => (it.JobBytes, it.Score))).Perm
          (ms.filter (fun m => decide (lo ≤ m.2 ∧ m.2 ≤ hi)))
      ∧ items.Pairwise (fun a b => a.Score ≤ b.Score)
      ∧ (∀ it ∈ items, it.Score ≤ hi)
      ∧ (∀ (t : Int) (m1 m2 m3 m4 : Bytes), 100 ≤ t → lo = 0 → hi = t →
          ms = [(m1, t - 100), (m2, t - 1), (m3, t), (m4, t + 50)] →
          items = [⟨m1, t - 100⟩, ⟨m2, t - 1⟩, ⟨m3, t⟩]) := by
  have hbad : ¬ (pool = Pool.nil ∨ c.IsEmptyStr key = true ∨ (lo :: hi :: rest).length < 2) := by
    simp [hpool, hkey]
  have hio := issue_of_no_fault c (.zrangebyscore key lo hi) w hfault
  have hexec : (exec c (.zrangebyscore key lo hi) w.store).1
      = .ok (.array (flatten (zrange ms lo hi))) := by
    unfold exec
    rcases hstore with hstore | ⟨hstore, rfl⟩
    · simp only [hstore]
    · simp only [hstore]
      rfl
  have hin : ∀ p ∈ zrange ms lo hi, isExactScore p.2 := by
    intro p hp
    exact hms p ((zrange_mem ms lo hi p).mp hp).1
  have hrun : GetZsetByScore c pool key (lo :: hi :: rest) w
      = (.ok ((zrange ms lo hi).map (fun p => ⟨p.1, p.2⟩)),
          (w.issue c (.zrangebyscore key lo hi)).2) := by
    unfold GetZsetByScore
    rw [if_neg hbad]
    simp only [hio.1, hexec, redisValues, ScanSlice_flatten_ok _ hin]
  have hmap : ((zrange ms lo hi).map (fun p => (⟨p.1, p.2⟩ : JobScore))).map
      (fun it => (it.JobBytes, it.Score)) = zrange ms lo hi := by
    induction zrange ms lo hi with
    | nil => rfl
    | cons p l ih => simp only [List.map_cons, ih]
  refine ⟨_, _, hrun, ?_, ?_, ?_, ?_⟩
  · rw [hmap]
    exact zrange_perm ms lo hi
  · rw [List.pairwise_map]
    exact zrange_sorted ms lo hi
  · intro it hit
    obtain ⟨p, hp, rfl⟩ := List.mem_map.mp hit
    exact ((zrange_mem ms lo hi p).mp hp).2.2
  · intro t m1 m2 m3 m4 ht hlo0 hhit hms
    subst hlo0 hhit hms
    rw [zrange_example hi ht]
    rfl

/-- C8 on the example `t = 1000`: of the members with scores 1050, 1000, 900, 999 the
scan of `[0, 1000]` returns those with 900, 999, 1000, in that order. -/
theorem scan_range_witness :
    (∃ (items : List JobScore) (w' : World),
      GetZsetByScore exampleCollab Pool.live "ns:scheduled" [0, 1000]
          (exampleWorld [([4], 1050), ([3], 1000), ([1], 900), ([2], 999)] false noFault)
        = (.ok items, w')
      ∧ (items.map (fun it => (it.JobBytes, it.Score))).Perm
          ([([4], 1050), ([3], 1000), ([1], 900), ([2], 999)].filter
            (fun m => decide ((0 : Int) ≤ m.2 ∧ m.2 ≤ 1000)))
      ∧ items.Pairwise (fun a b => a.Score ≤ b.Score)
      ∧ (∀ it ∈ items, it.Score ≤ 1000)
      ∧ (∀ (t : Int) (m1 m2 m3 m4 : Bytes), 100 ≤ t → (0 : Int) = 0 → (1000 : Int) = t →
          [([4], 1050), ([3], 1000), ([1], 900), ([2], 999)]
            = [(m1, t - 100), (m2, t - 1), (m3, t), (m4, t + 50)] →
          items = [⟨m1, t - 100⟩, ⟨m2, t - 1⟩, ⟨m3, t⟩]))
    ∧ (GetZsetByScore exampleCollab Pool.live "ns:scheduled" [0, 1000]
          (exampleWorld [([4], 1050), ([3], 1000), ([1], 900), ([2], 999)] false noFault)).1
        = .ok [⟨[1], 900⟩, ⟨[2], 999⟩, ⟨[3], 1000⟩] :=
  ⟨scan_range exampleCollab Pool.live "ns:scheduled" 0 1000 []
      [([4], 1050), ([3], 1000), ([1], 900), ([2], 999)]
      (exampleWorld [([4], 1050), ([3], 1000), ([1], 900), ([2], 999)] false noFault)
      (by decide) (by decide) (by decide) (by decide) (by decide) (Or.inl (by decide))
      (by decide),
   by decide⟩

/-- C8 as stated fails: the index holds one member with score `10^17`, the bounds are
`[0, 2^62]`, the pool is live and the store answers.  The member is within the bounds,
the store prints its score as `1e+17`, `ScanSlice` cannot read that into the `int64`
field `Score`, and `GetZsetByScore` returns an error instead of the member. -/
theorem scan_range_fails_on_exponent_score :
    ((0 : Int) ≤ 10 ^ 17 ∧ (10 : Int) ^ 17 ≤ 2 ^ 62)
    ∧ isInt64 0 ∧ isInt64 (2 ^ 62)
    ∧ fmtScore (10 ^ 17) = [49, 101, 43, 49, 55]
    ∧ (GetZsetByScore exampleCollab Pool.live "ns:scheduled" [0, 2 ^ 62]
          (exampleWorld [([1], 10 ^ 17)] false noFault)).1
        = .error (.errorString "redigo.ScanSlice: cannot assign element to field Score")
    ∧ ¬ ∃ (items : List JobScore) (w' : World),
        GetZsetByScore exampleCollab Pool.live "ns:scheduled" [0, 2 ^ 62]
          (exampleWorld [([1], 10 ^ 17)] false noFault) = (.ok items, w') := by
  refine ⟨by decide, by decide, by decide, by decide, by decide, ?_⟩
  rintro ⟨items, w', h⟩
  have h1 := congrArg Prod.fst h
  have h2 : (GetZsetByScore exampleCollab Pool.live "ns:scheduled" [0, 2 ^ 62]
      (exampleWorld [([1], 10 ^ 17)] false noFault)).1
      = .error (.errorString "redigo.ScanSlice: cannot assign element to field Score") := by
    decide
  rw [h2] at h1
  cases h1

/-! ## Only stale members are touched -/

theorem newCalls_shape (c : Collab) (s : Sweeper) (w : World) (hpool : s.redisPool = Pool.live) :
    ∃ (mid : List Call) (res : Except GoError Reply),
      newCalls c s w
        = ⟨.set (c.KeyPeriodicLock s.namespace_) (w.clock w.ticks) 30, (lockStep c s w).1⟩
          :: (mid ++ [⟨.del (c.KeyPeriodicLock s.namespace_), res⟩])
      ∧ (afterLock c s (lockStep c s w).1 (lockStep c s w).2).2.trace
          = (lockStep c s w).2.trace ++ mid := by
  have hrun := run_eq c s w hpool
  obtain ⟨mid, hmid, _⟩ := afterLock_trace c s (lockStep c s w).1 (lockStep c s w).2
  refine ⟨mid, ((afterLock c s (lockStep c s w).1 (lockStep c s w).2).2.issue c
      (.del (c.KeyPeriodicLock s.namespace_))).1, ?_, hmid⟩
  apply newCalls_eq c s w _ _ _ hrun
  rw [unlockStep_trace, hmid, lockStep_trace]
  simp

/-- A `DeleteScheduledJob` request is only ever sent by a call that acquired the lock
and whose scan succeeded. -/
theorem delete_call_swept (c : Collab) (s : Sweeper) (w : World)
    (hpool : s.redisPool = Pool.live) (call : Call) (hcall : call ∈ newCalls c s w)
    (hdel : call.op.isDelete = true) :
    ∃ (r : Reply) (items : List JobScore), (lockStep c s w).1 = .ok r ∧ r ≠ Reply.nil
      ∧ (scanStep c s (lockStep c s w).2).1 = .ok items := by
  obtain ⟨mid, res, hnew, hmid⟩ := newCalls_shape c s w hpool
  rw [hnew] at hcall
  have hin : call ∈ mid := by
    rcases List.mem_cons.mp hcall with rfl | h
    · cases hdel
    · rcases List.mem_append.mp h with h | h
      · exact h
      · rw [List.mem_singleton] at h
        subst h
        cases hdel
  cases hl : (lockStep c s w).1 with
  | error e =>
    rw [hl, afterLock_error] at hmid
    have : mid = [] := by simpa using hmid
    rw [this] at hin
    cases hin
  | ok r =>
    rw [hl] at hmid
    by_cases hr : r = Reply.nil
    · subst hr
      rw [afterLock_nil] at hmid
      have : mid = [] := by simpa [World.log] using hmid
      rw [this] at hin
      cases hin
    · cases hs : (scanStep c s (lockStep c s w).2).1 with
      | ok items => exact ⟨r, items, rfl, hr, rfl⟩
      | error e =>
        rw [afterLock_scan_error c s _ r e hr hs] at hmid
        obtain ⟨_, _, hsc⟩ := scanStep_effect c s (lockStep c s w).2
        rcases hsc with ⟨_, ht⟩ | ⟨_, _, _, _, hv3, _⟩
        · rcases ht with ht | ⟨lo, hi, res', ht⟩
          · rw [ht] at hmid
            have : mid = [] := by simpa using hmid
            rw [this] at hin
            cases hin
          · rw [ht] at hmid
            have : mid = [⟨.zrangebyscore (c.RedisKeyScheduled s.namespace_) lo hi, res'⟩] := by
              simpa using hmid.symm
            rw [this, List.mem_singleton] at hin
            subst hin
            cases hdel
        · rw [hs] at hv3
          cases hv3

theorem lockStep_members (c : Collab) (s : Sweeper) (key : String) (w : World) :
    ∀ m ∈ (lockStep c s w).2.store.members key, m ∈ w.store.members key := by
  intro m hm
  rcases issue_store_cases c (.set (c.KeyPeriodicLock s.namespace_) (w.clock w.ticks) 30)
    w.now.2 with h | h
  · have h' : (lockStep c s w).2.store = w.store := h
    rwa [h'] at hm
  · have h' : (lockStep c s w).2.store
        = (exec c (.set (c.KeyPeriodicLock s.namespace_) (w.clock w.ticks) 30) w.store).2 := h
    rw [h'] at hm
    unfold exec at hm
    simp only at hm
    split at hm
    · exact hm
    · unfold Store.members Store.put at hm
      by_cases hk : key = c.KeyPeriodicLock s.namespace_
      · simp [hk] at hm
      · simp only [hk, if_false] at hm
        exact hm

/-- C9: every `DeleteScheduledJob` request of a call carries a score `s` with
`0 ≤ s ≤ nowEpoch`, where `nowEpoch` is the second reading of the clock in that call
(line 55), and names a member of the scheduled index with that score; so no member
whose score is greater than the current time is requested for deletion. -/
theorem sweep_only_touches_stale (c : Collab) (s : Sweeper) (w : World)
    (hpool : s.redisPool = Pool.live) :
    ∀ call ∈ newCalls c s w, ∀ (score : Int) (id : String),
      call.op = .deleteScheduledJob score id →
      0 ≤ score ∧ score ≤ w.clock (w.ticks + 1)
      ∧ ∃ m, (m, score) ∈ w.store.members (c.RedisKeyScheduled s.namespace_)
          ∧ c.DeSerializeJob m = .ok ⟨id⟩ := by
  intro call hcall score id hop
  obtain ⟨r, items, hset, hr, hscan⟩ :=
    delete_call_swept c s w hpool call hcall (by rw [hop]; rfl)
  obtain ⟨w', values, calls, res, _, h2, hss, hv1, h5, _⟩ :=
    run_swept c s w r items hpool hset hr hscan
  have hin : call ∈ calls := by
    rw [h2] at hcall
    rcases List.mem_cons.mp hcall with rfl | h
    · cases hop
    · rcases List.mem_cons.mp h with rfl | h
      · cases hop
      · rcases List.mem_append.mp h with h | h
        · exact h
        · rw [List.mem_singleton] at h
          subst h
          cases hop
  have hreq : call.op ∈ items.filterMap (requestOf c) := by
    rw [← h5]
    exact List.mem_map_of_mem _ hin
  obtain ⟨it, hit, hitreq⟩ := List.mem_filterMap.mp hreq
  have hdec : c.DeSerializeJob it.JobBytes = .ok ⟨id⟩ ∧ it.Score = score := by
    unfold requestOf at hitreq
    cases hd : c.DeSerializeJob it.JobBytes with
    | error e => rw [hd] at hitreq; cases hitreq
    | ok j =>
      rw [hd, hop] at hitreq
      simp only [Option.some.injEq, Op.deleteScheduledJob.injEq] at hitreq
      obtain ⟨h1, h2⟩ := hitreq
      exact ⟨by rw [← h2], h1⟩
  have hio := issue_ok c _ _ _ hv1
  have hexec := hio.1
  have hstore1 : (lockStep c s w).2.now.2.store = (lockStep c s w).2.store := rfl
  rw [hstore1] at hexec
  unfold exec at hexec
  simp only at hexec
  cases hk : (lockStep c s w).2.store (c.RedisKeyScheduled s.namespace_) with
  | none =>
    rw [hk] at hexec
    simp only [Except.ok.injEq, Reply.array.injEq] at hexec
    rw [← hexec] at hss
    have : items = [] := by
      have := ScanSlice_flatten_eq [] items hss
      simpa using this
    rw [this] at hit
    cases hit
  | some en =>
    cases en with
    | str v =>
      rw [hk] at hexec
      cases hexec
    | zset ms =>
      rw [hk] at hexec
      simp only [Except.ok.injEq, Reply.array.injEq] at hexec
      rw [← hexec] at hss
      have hitems := ScanSlice_flatten_eq _ items hss
      rw [hitems] at hit
      obtain ⟨p, hp, hpit⟩ := List.mem_map.mp hit
      have hpm := (zrange_mem ms 0 _ p).mp hp
      have hmem1 : p ∈ (lockStep c s w).2.store.members (c.RedisKeyScheduled s.namespace_) := by
        unfold Store.members
        rw [hk]
        exact hpm.1
      have hmem := lockStep_members c s _ w p hmem1
      have hsc : p.2 = score := by rw [← hdec.2, ← hpit]
      have hby : p.1 = it.JobBytes := by rw [← hpit]
      refine ⟨by omega, by omega, p.1, ?_, by rw [hby]; exact hdec.1⟩
      rw [← hsc]
      exact hmem

/-- C9 on the example: at time 1000 the index holds scores 10, 1000 and 2000; only the
first two are requested. -/
theorem sweep_only_touches_stale_witness :
    (∀ call ∈ newCalls exampleCollab exampleSweeper
          (exampleWorld [([1], 10), ([2], 1000), ([3], 2000)] false noFault),
      ∀ (score : Int) (id : String), call.op = .deleteScheduledJob score id →
        0 ≤ score ∧ score ≤ 1000
        ∧ ∃ m, (m, score) ∈ [(([1] : Bytes), (10 : Int)), ([2], 1000), ([3], 2000)]
            ∧ exampleDecode m = .ok ⟨id⟩)
    ∧ deleteRequests (newCalls exampleCollab exampleSweeper
          (exampleWorld [([1], 10), ([2], 1000), ([3], 2000)] false noFault))
        = [.deleteScheduledJob 10 "a", .deleteScheduledJob 1000 "b"] :=
  ⟨sweep_only_touches_stale exampleCollab exampleSweeper
      (exampleWorld [([1], 10), ([2], 1000), ([3], 2000)] false noFault) rfl,
   by decide⟩

/-! ## The transition system against the method -/

theorem runAlone_sweeping (c : Collab) (s : Sweeper) :
    ∀ (items : List JobScore) (errs : List GoError) (w : World),
      Proc.runAlone c s (items.length + 1) (.sweeping items errs, w)
        = (.done (reduceErrors (sweepItems c items errs w).1),
            unlockStep c s (sweepItems c items errs w).2) := by
  intro items
  induction items with
  | nil => intro errs w; rfl
  | cons it rest ih =>
    intro errs w
    rw [sweepItems_cons, ← ih]
    rfl

/-- A process that runs alone goes through the steps of the method: after finitely
many steps it is done, with the error and the world `ClearOutdatedScheduledJobs`
returns. -/
theorem runAlone_refines (c : Collab) (s : Sweeper) (w : World)
    (hpool : s.redisPool = Pool.live) :
    ∃ (n : Nat) (ret : Option GoError) (w' : World),
      ClearOutdatedScheduledJobs c s w = some (ret, w')
      ∧ Proc.runAlone c s n (.start, w) = (.done ret, w') := by
  have hrun := run_eq c s w hpool
  cases hl : (lockStep c s w).1 with
  | error e =>
    rw [hl, afterLock_error] at hrun
    refine ⟨2, _, _, hrun, ?_⟩
    simp only [Proc.runAlone, Proc.step, hl]
  | ok r =>
    rw [hl] at hrun
    by_cases hr : r = Reply.nil
    · subst hr
      rw [afterLock_nil] at hrun
      refine ⟨2, _, _, hrun, ?_⟩
      simp only [Proc.runAlone, Proc.step, hl, if_true]
    · cases hs : (scanStep c s (lockStep c s w).2).1 with
      | error e =>
        rw [afterLock_scan_error c s _ r e hr hs] at hrun
        refine ⟨3, _, _, hrun, ?_⟩
        simp only [Proc.runAlone, Proc.step, hl, if_neg hr, hs]
      | ok items =>
        rw [afterLock_swept c s _ r items hr hs] at hrun
        refine ⟨items.length + 1 + 2, _, _, hrun, ?_⟩
        have h2 : Proc.runAlone c s (items.length + 1 + 2) (.start, w)
            = Proc.runAlone c s (items.length + 1)
                (.sweeping items [], (scanStep c s (lockStep c s w).2).2) := by
          simp only [Proc.runAlone, Proc.step, hl, if_neg hr, hs]
        rw [h2, runAlone_sweeping]

/-! ## Mutual exclusion of sweeps -/

/-- C1: three processes sweep the namespace `ns`, whose lock key is free.  Process 0
acquires the lock; process 1 finds it held (its `SET ... NX` returns nil) and returns,
and its deferred `DEL` deletes the key of process 0; process 2 then acquires the lock
while process 0 has not released it.  Two processes hold the lock at once, so "at most
one holder in every reachable state" does not hold of the method. -/
theorem lock_deleted_by_contender :
    (System.run exampleCollab exampleSweeper
        ⟨exampleWorld [] false noFault, [.start, .start, .start]⟩ [0, 1, 1, 2]).procs
      = [.holding, .done none, .holding]
    ∧ (System.run exampleCollab exampleSweeper
        ⟨exampleWorld [] false noFault, [.start, .start, .start]⟩ [0, 1, 1, 2]).holders = 2
    ∧ ¬ (∀ schedule : List Nat,
          (System.run exampleCollab exampleSweeper
            ⟨exampleWorld [] false noFault, [.start, .start, .start]⟩ schedule).holders ≤ 1) := by
  refine ⟨by decide, by decide, ?_⟩
  intro h
  exact absurd (h [0, 1, 1, 2]) (by decide)

/-! ## The log of cleared jobs -/

/-- The line of line 73 is written for every scanned item that decodes, whatever its
deletion request returned. -/
theorem cleared_log_per_decoded_item (c : Collab) (s : Sweeper) (w : World) (r : Reply)
    (items : List JobScore) (hpool : s.redisPool = Pool.live)
    (hset : (lockStep c s w).1 = .ok r) (hr : r ≠ Reply.nil)
    (hscan : (scanStep c s (lockStep c s w).2).1 = .ok items) :
    ∃ (ret : Option GoError) (w' : World), ClearOutdatedScheduledJobs c s w = some (ret, w')
      ∧ w'.logs = w.logs ++ items.filterMap (fun it =>
          match c.DeSerializeJob it.JobBytes with
          | .error _ => none
          | .ok j => some (.cleared j.ID it.Score)) := by
  obtain ⟨w', _, _, _, h1, _, _, _, _, _, h7, _⟩ := run_swept c s w r items hpool hset hr hscan
  exact ⟨_, w', h1, h7⟩

/-- C10: the index holds one stale item, job `a` with score 10, and its
`DeleteScheduledJob` request fails with `conn reset`.  The call returns that error, the
item is still in the index, and the log has the line
`Clear outdated scheduled job: a run at <time of 10>` all the same. -/
theorem cleared_logged_after_failed_deletion :
    (ClearOutdatedScheduledJobs exampleCollab exampleSweeper
        (exampleWorld [([1], 10)] false (failAt 2))).map (fun out => out.1)
      = some (some (.ext 9 "conn reset"))
    ∧ deleteResults (newCalls exampleCollab exampleSweeper
        (exampleWorld [([1], 10)] false (failAt 2))) = [.error (.ext 9 "conn reset")]
    ∧ (ClearOutdatedScheduledJobs exampleCollab exampleSweeper
        (exampleWorld [([1], 10)] false (failAt 2))).map
          (fun out => out.2.store.members "ns:scheduled") = some [([1], 10)]
    ∧ (ClearOutdatedScheduledJobs exampleCollab exampleSweeper
        (exampleWorld [([1], 10)] false (failAt 2))).map (fun out => out.2.logs)
      = some [.cleared "a" 10] := by
  refine ⟨by decide, by decide, by decide, by decide⟩

end Period
